import Mathlib

/-!
Shallow embedding of the color-overlay reconciliation engine of
`git_branch_theme` (`src/extension.ts`), together with proofs about its
reconciliation, rebase and restore passes.

Modelling conventions:
* The external configuration object `workbench.colorCustomizations` is a
  JSON-derived mapping, modelled as `String → Option CVal`.  A stored value
  is a string or some other JSON value (modelled abstractly as `CVal.other`);
  the JS value `undefined` is represented by absence (`Option.none`), which
  matches JSON-derived objects, where `key in obj` holds exactly when
  `obj[key] !== undefined`.
* JS objects used as dictionaries (`originals`, `appliedColors`) are modelled
  as association lists; `oset` replaces, `oerase` removes, `olookup` reads.
* Regex compilation/testing is the external primitive
  `rt : String → String → Option Bool`; `rt pattern input = none` models a
  pattern whose compilation throws (the `catch` path in `findMatchingRule`),
  `some b` a successful `regex.test(input)` returning `b`.
* Each `await config.update(...)` / `workspaceState.update(...)` call of a
  pass is reported as a `...Written` flag in the pass result.
-/

namespace GitBranchTheme

/-- A value stored in the JSON-backed configuration mapping: a string, or any
other JSON value (number, boolean, null, object), modelled abstractly. -/
inductive CVal
  | str (s : String)
  | other (n : Nat)
deriving DecidableEq

/-- `OriginalColorEntry` from extension.ts: `{ missing: true } | { value: unknown }`. -/
inductive OriginalColorEntry
  | missing
  | value (v : CVal)
deriving DecidableEq

/-- The external configuration mapping (`workbench.colorCustomizations`). -/
abbrev Cfg : Type := String → Option CVal

/-- `next[key] = v` on the configuration object. -/
def cset (m : Cfg) (k : String) (v : CVal) : Cfg :=
  fun q => if q = k then some v else m q

/-- `delete next[key]` on the configuration object. -/
def cdel (m : Cfg) (k : String) : Cfg :=
  fun q => if q = k then none else m q

/-- Read a JS dictionary, modelled as an association list. -/
def olookup {α : Type} : List (String × α) → String → Option α
  | [], _ => none
  | (k, v) :: m, q => if k = q then some v else olookup m q

/-- `delete obj[key]` on a JS dictionary. -/
def oerase {α : Type} : List (String × α) → String → List (String × α)
  | [], _ => []
  | p :: m, k => if p.1 = k then oerase m k else p :: oerase m k

/-- `obj[key] = v` on a JS dictionary. -/
def oset {α : Type} (m : List (String × α)) (k : String) (v : α) : List (String × α) :=
  (k, v) :: oerase m k

/-- `Object.keys`. -/
def okeys {α : Type} (m : List (String × α)) : List String :=
  m.map (fun p => p.1)

/-- JS `Set` built from a list: deduplicate keeping the first occurrence,
preserving insertion order (also the semantics of the
`filter((v, i, self) => self.indexOf(v) === i)` idiom). -/
def dedupFirst : List String → List String
  | [] => []
  | x :: xs => x :: (dedupFirst xs).filter (fun y => y != x)

/-- `BranchRule` from extension.ts. -/
structure BranchRule where
  pattern : String
  color : String
deriving DecidableEq

/-- `ColorTargets` from extension.ts. -/
structure ColorTargets where
  apply : List String
  cleanup : List String
deriving DecidableEq

/-- `DEFAULT_COLOR_KEYS`. -/
def DEFAULT_COLOR_KEYS : List String :=
  ["titleBar.activeBackground", "titleBar.inactiveBackground"]

/-- JS `String.prototype.trim`: strip leading and trailing whitespace. -/
def trimModel (s : String) : String :=
  String.mk (((s.toList.dropWhile Char.isWhitespace).reverse.dropWhile Char.isWhitespace).reverse)

/-- `getRules`: keep the configured rules with truthy (nonempty) pattern and color. -/
def getRulesModel (raw : List BranchRule) : List BranchRule :=
  raw.filter (fun r => r.pattern != "" && r.color != "")

/-- `getColorTargets`: normalize the configured key list (trim, drop empties,
deduplicate keeping first occurrences, default when empty) and build the
cleanup set from the apply set, the defaults, and the persisted previous keys. -/
def getColorTargetsModel (configuredKeys : List String) (lastKeys : List String) : ColorTargets :=
  let normalizedKeys := (configuredKeys.map trimModel).filter (fun k => decide (0 < k.length))
  let applyKeys := dedupFirst (if 0 < normalizedKeys.length then normalizedKeys else DEFAULT_COLOR_KEYS)
  let cleanupKeys := dedupFirst (applyKeys ++ DEFAULT_COLOR_KEYS ++ lastKeys)
  { apply := applyKeys, cleanup := cleanupKeys }

/-- `findMatchingRule`: first rule whose pattern, compiled as a regular
expression, matches the branch name; a rule whose pattern fails to compile
(`rt _ _ = none`) is skipped and matching continues. -/
def findMatchingRule (rt : String → String → Option Bool) (branchName : String) :
    List BranchRule → Option BranchRule
  | [] => none
  | r :: rest =>
    match rt r.pattern branchName with
    | some true => some r
    | _ => findMatchingRule rt branchName rest

/-- The `console.warn` diagnostics of `findMatchingRule`: one per rule whose
pattern fails to compile, among the rules scanned before a match is found. -/
def findMatchingRuleDiags (rt : String → String → Option Bool) (branchName : String) :
    List BranchRule → List String
  | [] => []
  | r :: rest =>
    match rt r.pattern branchName with
    | some true => []
    | some false => findMatchingRuleDiags rt branchName rest
    | none => r.pattern :: findMatchingRuleDiags rt branchName rest

/-- Specification-side rule matching, following the spec's words: the first
rule (in order) whose pattern compiles and matches the branch name; rules
whose patterns fail to compile are skipped and matching continues. -/
def findMatchingRuleSpec (rt : String → String → Option Bool) (branchName : String)
    (rules : List BranchRule) : Option BranchRule :=
  rules.find? (fun r => rt r.pattern branchName == some true)

/-- The mutable state threaded through one `applyColor` pass: the working copy
`next` of the configuration, the two stores, and the three change flags. -/
structure PassSt where
  next : Cfg
  originals : List (String × OriginalColorEntry)
  applied : List (String × String)
  changed : Bool
  originalsChanged : Bool
  appliedChanged : Bool

/-- The entry `rememberOriginal` records for a key: `Value` of the snapshot
value if the key is present in `current`, else `Missing`. -/
def entryOf : Option CVal → OriginalColorEntry
  | some v => .value v
  | none => .missing

/-- `restoreOriginal` from `applyColor`: write the remembered original back
into `next`; returns the updated map and whether it altered it.  (The stored
`value` is never the JS `undefined` here: `rememberOriginal` only records
values of keys present in the JSON-derived snapshot, so the
`original.value === undefined` guard of the source cannot fire.) -/
def restoreOriginalFn (originals : List (String × OriginalColorEntry)) (next : Cfg)
    (k : String) : Cfg × Bool :=
  match olookup originals k with
  | none => (next, false)
  | some .missing => if (next k).isSome then (cdel next k, true) else (next, false)
  | some (.value v) => if next k ≠ some v then (cset next k v, true) else (next, false)

/-- The heuristic deletion test of the apply-loop fallback in `applyColor`:
the value is a string equal to a current rule color, or to the key's truthy
last applied value. -/
def heurDelete (ruleColors : List String) (applied : List (String × String))
    (k : String) : Option CVal → Bool
  | some (.str s) =>
    ruleColors.contains s ||
      (match olookup applied k with
       | some a => a != "" && s == a
       | none => false)
  | _ => false

/-- Invariant left at a cleanup-loop key: the value (if a string) matches
neither a rule color nor the resolved color, so a repeated cleanup pass with
no applied entry deletes nothing. -/
def keptSafe (color : Option String) (ruleColors : List String) (w : Option CVal) : Prop :=
  match w with
  | some (.str s) => (ruleColors.contains s || color == some s) = false
  | _ => True

/-- `removeAppliedColor`. -/
def removeAppliedStep (st : PassSt) (key : String) : PassSt :=
  if (olookup st.applied key).isSome then
    { st with applied := oerase st.applied key, appliedChanged := true }
  else st

/-- The `color` falsy branch of the `targets.apply` loop of `applyColor`,
before `removeAppliedColor`: restore the recorded original if that alters the
snapshot, otherwise run the heuristic cleanup (delete a string value equal to
a current rule color or to the truthy last applied value). -/
def applyRestoreCore (ruleColors : List String) (st : PassSt) (key : String) : PassSt :=
  let restored := restoreOriginalFn st.originals st.next key
  if restored.2 then { st with next := restored.1, changed := true }
  else
    match st.next key with
    | some (.str s) =>
      if ruleColors.contains s ||
          (match olookup st.applied key with
           | some a => a != "" && s == a
           | none => false) then
        { st with next := cdel st.next key, changed := true }
      else st
    | _ => st

/-- The full `color` falsy branch of the `targets.apply` loop of `applyColor`:
restore or heuristic cleanup, then `removeAppliedColor`. -/
def applyRestoreStep (ruleColors : List String) (st : PassSt) (key : String) : PassSt :=
  removeAppliedStep (applyRestoreCore ruleColors st key) key

/-- One iteration of the `targets.apply` loop of `applyColor`.  `if (color)`
tests truthiness, so an empty-string color takes the restore branch. -/
def applyKeyStep (color : Option String) (ruleColors : List String) (current : Cfg)
    (st : PassSt) (key : String) : PassSt :=
  match color with
  | some c =>
    if c = "" then applyRestoreStep ruleColors st key
    else
      let st1 := if olookup st.applied key = some c then st
                 else { st with applied := oset st.applied key c, appliedChanged := true }
      if st1.next key = some (.str c) then st1
      else
        let st2 :=
          if (olookup st1.originals key).isSome then st1
          else { st1 with
                 originals := oset st1.originals key (entryOf (current key))
                 originalsChanged := true }
        { st2 with next := cset st2.next key (.str c), changed := true }
  | none => applyRestoreStep ruleColors st key

/-- The deletion test of the `targets.cleanup` loop of `applyColor`: delete a
string value equal to a current rule color, to the resolved color, or to the
key's applied entry. -/
def cleanupCore (color : Option String) (ruleColors : List String)
    (st : PassSt) (key : String) : PassSt :=
  match st.next key with
  | some (.str s) =>
    let isRuleColor := ruleColors.contains s || color == some s
    let isAppliedColor :=
      match olookup st.applied key with
      | some a => s == a
      | none => false
    if isRuleColor || isAppliedColor then
      { st with next := cdel st.next key, changed := true }
    else st
  | _ => st

/-- One iteration of the `targets.cleanup` loop of `applyColor` (keys already
in `targets.apply` are skipped): the deletion test, then `removeAppliedColor`. -/
def cleanupKeyStep (color : Option String) (ruleColors : List String)
    (applyKeys : List String) (st : PassSt) (key : String) : PassSt :=
  if applyKeys.contains key then st
  else removeAppliedStep (cleanupCore color ruleColors st key) key

/-- `applyColor`: the per-key reconciliation pass over the snapshot `cfg`,
with the remembered `originals` and `applied` stores. -/
def applyColorModel (color : Option String) (rules : List BranchRule) (targets : ColorTargets)
    (cfg : Cfg) (originals : List (String × OriginalColorEntry))
    (applied : List (String × String)) : PassSt :=
  let ruleColors := rules.map (fun r => r.color)
  let st1 := targets.apply.foldl (applyKeyStep color ruleColors cfg)
    ⟨cfg, originals, applied, false, false, false⟩
  targets.cleanup.foldl (cleanupKeyStep color ruleColors targets.apply) st1

/-- The persistent workspace state: the last applied target keys and the two
overlay stores. -/
structure WS where
  lastKeys : List String
  originals : List (String × OriginalColorEntry)
  applied : List (String × String)
deriving DecidableEq

/-- Result of one `updateColors` pass: the external configuration and
workspace state after the pass, and one flag per `update(...)` call made. -/
structure UpdateOut where
  cfg : Cfg
  ws : WS
  cfgWritten : Bool
  originalsWritten : Bool
  appliedWritten : Bool
  lastKeysWritten : Bool

/-- The resolved color of `updateColors`:
`branchName ? findMatchingRule(branchName, rules)?.color : undefined`. -/
def resolvedColor (rt : String → String → Option Bool) (branchName : Option String)
    (rules : List BranchRule) : Option String :=
  match branchName with
  | some b => if b = "" then none else (findMatchingRule rt b rules).map (fun r => r.color)
  | none => none

/-- `updateColors`: one full normal pass — read rules and targets, resolve the
color, run `applyColor` with its conditional writes, then unconditionally
write the last applied target keys to the workspace state. -/
def updateColorsModel (rt : String → String → Option Bool) (branchName : Option String)
    (rawRules : List BranchRule) (configuredKeys : List String) (cfg : Cfg) (ws : WS) :
    UpdateOut :=
  let rules := getRulesModel rawRules
  let targets := getColorTargetsModel configuredKeys ws.lastKeys
  let color := resolvedColor rt branchName rules
  let st := applyColorModel color rules targets cfg ws.originals ws.applied
  { cfg := if st.changed then st.next else cfg
    ws := { lastKeys := targets.apply
            originals := if st.originalsChanged then st.originals else ws.originals
            applied := if st.appliedChanged then st.applied else ws.applied }
    cfgWritten := st.changed
    originalsWritten := st.originalsChanged
    appliedWritten := st.appliedChanged
    lastKeysWritten := true }

/-- Abbreviation for the `applyColor` pass state that `updateColorsModel`
computes internally (same rules, targets and resolved color). -/
def passOf (rt : String → String → Option Bool) (branchName : Option String)
    (rawRules : List BranchRule) (configuredKeys : List String) (cfg : Cfg) (ws : WS) :
    PassSt :=
  applyColorModel (resolvedColor rt branchName (getRulesModel rawRules)) (getRulesModel rawRules)
    (getColorTargetsModel configuredKeys ws.lastKeys) cfg ws.originals ws.applied

/-- State threaded through one `clearBranchOverrides` loop. -/
structure ClearSt where
  next : Cfg
  applied : List (String × String)
  changed : Bool
  appliedChanged : Bool

/-- The deletion test of the `clearBranchOverrides` loop: delete a string
value equal to a current rule color or to the truthy applied color. -/
def clearCore (ruleColors : List String) (st : ClearSt) (key : String) : ClearSt :=
  match st.next key with
  | some (.str s) =>
    if ruleColors.contains s ||
        (match olookup st.applied key with
         | some a => a != "" && a == s
         | none => false) then
      { st with next := cdel st.next key, changed := true }
    else st
  | _ => st

/-- One iteration of the `clearBranchOverrides` loop: the deletion test, then
drop the applied entry when one was present. -/
def clearKeyStep (ruleColors : List String) (st : ClearSt) (key : String) : ClearSt :=
  let st1 := clearCore ruleColors st key
  if (olookup st.applied key).isSome then
    { st1 with applied := oerase st1.applied key, appliedChanged := true }
  else st1

/-- Result of `clearBranchOverrides`. -/
structure ClearOut where
  cfg : Cfg
  applied : List (String × String)
  cfgWritten : Bool
  appliedWritten : Bool

/-- `clearBranchOverrides`: the heuristic cleanup over
`Set([...targets.apply, ...targets.cleanup])`, ignoring `originals`. -/
def clearBranchOverridesModel (rules : List BranchRule) (targets : ColorTargets)
    (cfg : Cfg) (applied : List (String × String)) : ClearOut :=
  let ruleColors := rules.map (fun r => r.color)
  let keys := dedupFirst (targets.apply ++ targets.cleanup)
  let st := keys.foldl (clearKeyStep ruleColors) ⟨cfg, applied, false, false⟩
  { cfg := if st.changed then st.next else cfg
    applied := if st.appliedChanged then st.applied else applied
    cfgWritten := st.changed
    appliedWritten := st.appliedChanged }

/-- `rebaseAfterThemeChange`: a no-op when no overlay state is stored;
otherwise heuristic cleanup, discard of both stores, then a fresh normal pass. -/
def rebaseAfterThemeChangeModel (rt : String → String → Option Bool)
    (branchName : Option String) (rawRules : List BranchRule) (configuredKeys : List String)
    (cfg : Cfg) (ws : WS) : Cfg × WS :=
  if ws.originals = [] ∧ ws.applied = [] then (cfg, ws)
  else
    let rules := getRulesModel rawRules
    let targets := getColorTargetsModel configuredKeys ws.lastKeys
    let cleared := clearBranchOverridesModel rules targets cfg ws.applied
    let ws1 : WS := { lastKeys := ws.lastKeys, originals := [], applied := [] }
    let out := updateColorsModel rt branchName rawRules configuredKeys cleared.cfg ws1
    (out.cfg, out.ws)

/-- One iteration of the `restoreOriginalColors` loop: restore from the
`originals` entry when present (delete if `Missing`, else write the recorded
value); otherwise delete the key when its value is a string equal to the
truthy applied color. -/
def restoreKeyStep (originals : List (String × OriginalColorEntry))
    (applied : List (String × String)) (st : Cfg × Bool) (key : String) : Cfg × Bool :=
  match olookup originals key with
  | some .missing => if (st.1 key).isSome then (cdel st.1 key, true) else st
  | some (.value v) => if st.1 key ≠ some v then (cset st.1 key v, true) else st
  | none =>
    match olookup applied key with
    | some a => if a ≠ "" ∧ st.1 key = some (.str a) then (cdel st.1 key, true) else st
    | none => st

/-- Result of `restoreOriginalColors`. -/
structure RestoreOut where
  cfg : Cfg
  ws : WS
  cfgWritten : Bool

/-- `restoreOriginalColors`: the full restore run at deactivation or manual
reset.  With empty stores it only runs the heuristic cleanup (and only when
rules are configured); otherwise it restores every key of
`Set([...keys(originals), ...keys(applied)])` and discards both stores. -/
def restoreOriginalColorsModel (rawRules : List BranchRule) (configuredKeys : List String)
    (cfg : Cfg) (ws : WS) : RestoreOut :=
  let keys := dedupFirst (okeys ws.originals ++ okeys ws.applied)
  if keys = [] then
    let rules := getRulesModel rawRules
    if rules = [] then { cfg := cfg, ws := ws, cfgWritten := false }
    else
      let targets := getColorTargetsModel configuredKeys ws.lastKeys
      let cleared := clearBranchOverridesModel rules targets cfg ws.applied
      { cfg := cleared.cfg
        ws := { lastKeys := ws.lastKeys, originals := [], applied := [] }
        cfgWritten := cleared.cfgWritten }
  else
    let st := keys.foldl (restoreKeyStep ws.originals ws.applied) (cfg, false)
    { cfg := if st.2 then st.1 else cfg
      ws := { lastKeys := ws.lastKeys, originals := [], applied := [] }
      cfgWritten := st.2 }

/-- A configuration-change event, by which sections it affects
(`event.affectsConfiguration(...)` for the four tested section keys). -/
structure CfgChangeEvent where
  affectsRules : Bool
  affectsTargetKeys : Bool
  affectsTheme : Bool
  affectsColorCustomizations : Bool

/-- What the configuration-change listener dispatches. -/
inductive ListenerAction
  | runUpdate
  | runRebase
  | ignore
deriving DecidableEq

/-- The `onDidChangeConfiguration` listener registered in `activate`. -/
def configChangeListener (isApplyingColors : Bool) (e : CfgChangeEvent) : ListenerAction :=
  if e.affectsRules || e.affectsTargetKeys then .runUpdate
  else if !isApplyingColors && (e.affectsTheme || e.affectsColorCustomizations) then .runRebase
  else .ignore

/-! ### Lemmas about the map primitives -/

theorem cset_self (m : Cfg) (k : String) (v : CVal) : cset m k v k = some v := by
  simp [cset]

theorem cset_ne {q k : String} (h : q ≠ k) (m : Cfg) (v : CVal) : cset m k v q = m q := by
  simp [cset, h]

theorem cdel_self (m : Cfg) (k : String) : cdel m k k = none := by
  simp [cdel]

theorem cdel_ne {q k : String} (h : q ≠ k) (m : Cfg) : cdel m k q = m q := by
  simp [cdel, h]

theorem olookup_oerase_self {α : Type} (m : List (String × α)) (k : String) :
    olookup (oerase m k) k = none := by
  induction m with
  | nil => rfl
  | cons p m ih =>
    obtain ⟨a, b⟩ := p
    by_cases hak : a = k
    · simpa [oerase, hak] using ih
    · simpa [oerase, olookup, hak] using ih

theorem olookup_oerase_ne {α : Type} {k q : String} (h : k ≠ q) (m : List (String × α)) :
    olookup (oerase m k) q = olookup m q := by
  induction m with
  | nil => rfl
  | cons p m ih =>
    obtain ⟨a, b⟩ := p
    by_cases hak : a = k
    · subst hak
      simp [oerase, olookup, h, ih]
    · simp [oerase, olookup, hak, ih]

theorem olookup_oset_self {α : Type} (m : List (String × α)) (k : String) (v : α) :
    olookup (oset m k v) k = some v := by
  simp [oset, olookup]

theorem olookup_oset_ne {α : Type} {k q : String} (h : k ≠ q) (m : List (String × α)) (v : α) :
    olookup (oset m k v) q = olookup m q := by
  simp [oset, olookup, h, olookup_oerase_ne h]

theorem mem_okeys {α : Type} (m : List (String × α)) (q : String) :
    q ∈ okeys m ↔ (olookup m q).isSome := by
  induction m with
  | nil => simp [okeys, olookup]
  | cons p m ih =>
    obtain ⟨a, b⟩ := p
    by_cases haq : a = q
    · subst haq
      simp [okeys, olookup]
    · have h1 : okeys ((a, b) :: m) = a :: okeys m := rfl
      have h2 : olookup ((a, b) :: m) q = olookup m q := by
        simp [olookup, haq]
      rw [h1, List.mem_cons, h2, ← ih]
      constructor
      · rintro (h3 | h3)
        · exact absurd h3.symm haq
        · exact h3
      · exact Or.inr

theorem mem_dedupFirst (l : List String) (q : String) : q ∈ dedupFirst l ↔ q ∈ l := by
  induction l with
  | nil => simp [dedupFirst]
  | cons x xs ih =>
    by_cases hqx : q = x
    · simp [dedupFirst, hqx]
    · simp [dedupFirst, List.mem_filter, hqx, ih, bne_iff_ne]

theorem nodup_dedupFirst (l : List String) : (dedupFirst l).Nodup := by
  induction l with
  | nil => simp [dedupFirst]
  | cons x xs ih =>
    refine List.nodup_cons.mpr ⟨?_, ih.filter _⟩
    intro hx
    have := (List.mem_filter.mp hx).2
    simp at this

/-! ### Generic fold lemmas -/

theorem foldl_pres {σ α : Type} {p : σ → Prop} (step : σ → α → σ) :
    ∀ (l : List α) (st : σ), (∀ st a, a ∈ l → p st → p (step st a)) → p st → p (l.foldl step st)
  | [], _, _, hp => hp
  | a :: l, st, hstep, hp => by
    simp only [List.foldl_cons]
    exact foldl_pres step l (step st a)
      (fun st b hb => hstep st b (List.mem_cons_of_mem _ hb))
      (hstep st a (List.mem_cons_self _ _) hp)

theorem foldl_id {σ α : Type} (step : σ → α → σ) :
    ∀ (l : List α) (st : σ), (∀ a ∈ l, step st a = st) → l.foldl step st = st
  | [], _, _ => rfl
  | a :: l, st, h => by
    simp only [List.foldl_cons, h a (List.mem_cons_self a l)]
    exact foldl_id step l st (fun b hb => h b (List.mem_cons_of_mem _ hb))

theorem mem_nodup_split {α : Type} {k : α} {l : List α} (hm : k ∈ l) (hn : l.Nodup) :
    ∃ l1 l2, l = l1 ++ k :: l2 ∧ k ∉ l1 ∧ k ∉ l2 := by
  obtain ⟨l1, l2, rfl⟩ := List.append_of_mem hm
  rw [List.nodup_append] at hn
  refine ⟨l1, l2, rfl, ?_, (List.nodup_cons.mp hn.2.1).1⟩
  intro hk
  exact hn.2.2 hk (List.mem_cons_self _ _)

/-! ### Frame lemmas: each loop iteration only touches its own key -/

theorem restoreOriginalFn_fst_ne {k q : String} (h : q ≠ k)
    (o : List (String × OriginalColorEntry)) (n : Cfg) :
    (restoreOriginalFn o n k).1 q = n q := by
  cases ho : olookup o k with
  | none => simp [restoreOriginalFn, ho]
  | some e =>
    cases e with
    | missing =>
      simp only [restoreOriginalFn, ho]
      split <;> simp [cdel, h]
    | value v =>
      simp only [restoreOriginalFn, ho]
      split <;> simp [cset, h]

theorem removeAppliedStep_next (st : PassSt) (k : String) :
    (removeAppliedStep st k).next = st.next := by
  unfold removeAppliedStep; split <;> rfl

theorem removeAppliedStep_originals (st : PassSt) (k : String) :
    (removeAppliedStep st k).originals = st.originals := by
  unfold removeAppliedStep; split <;> rfl

theorem removeAppliedStep_changed (st : PassSt) (k : String) :
    (removeAppliedStep st k).changed = st.changed := by
  unfold removeAppliedStep; split <;> rfl

theorem removeAppliedStep_originalsChanged (st : PassSt) (k : String) :
    (removeAppliedStep st k).originalsChanged = st.originalsChanged := by
  unfold removeAppliedStep; split <;> rfl

theorem removeAppliedStep_applied_ne {k q : String} (h : q ≠ k) (st : PassSt) :
    olookup (removeAppliedStep st k).applied q = olookup st.applied q := by
  unfold removeAppliedStep
  split
  · simp [olookup_oerase_ne (Ne.symm h)]
  · rfl

theorem applyRestoreCore_originals (rc : List String) (st : PassSt) (k : String) :
    (applyRestoreCore rc st k).originals = st.originals := by
  unfold applyRestoreCore
  dsimp only
  split
  · rfl
  · split <;> first | rfl | (split <;> rfl)

theorem applyRestoreCore_originalsChanged (rc : List String) (st : PassSt) (k : String) :
    (applyRestoreCore rc st k).originalsChanged = st.originalsChanged := by
  unfold applyRestoreCore
  dsimp only
  split
  · rfl
  · split <;> first | rfl | (split <;> rfl)

theorem applyRestoreCore_applied (rc : List String) (st : PassSt) (k : String) :
    (applyRestoreCore rc st k).applied = st.applied := by
  unfold applyRestoreCore
  dsimp only
  split
  · rfl
  · split <;> first | rfl | (split <;> rfl)

theorem applyRestoreCore_appliedChanged (rc : List String) (st : PassSt) (k : String) :
    (applyRestoreCore rc st k).appliedChanged = st.appliedChanged := by
  unfold applyRestoreCore
  dsimp only
  split
  · rfl
  · split <;> first | rfl | (split <;> rfl)

theorem applyRestoreCore_next_ne {k q : String} (h : q ≠ k) (rc : List String) (st : PassSt) :
    (applyRestoreCore rc st k).next q = st.next q := by
  unfold applyRestoreCore
  dsimp only
  split
  · exact restoreOriginalFn_fst_ne h _ _
  · split <;> first | rfl | (split <;> simp [cdel, h])

theorem applyRestoreStep_originals (rc : List String) (st : PassSt) (k : String) :
    (applyRestoreStep rc st k).originals = st.originals := by
  unfold applyRestoreStep
  rw [removeAppliedStep_originals, applyRestoreCore_originals]

theorem applyRestoreStep_originalsChanged (rc : List String) (st : PassSt) (k : String) :
    (applyRestoreStep rc st k).originalsChanged = st.originalsChanged := by
  unfold applyRestoreStep
  rw [removeAppliedStep_originalsChanged, applyRestoreCore_originalsChanged]

theorem applyRestoreStep_next_ne {k q : String} (h : q ≠ k) (rc : List String) (st : PassSt) :
    (applyRestoreStep rc st k).next q = st.next q := by
  unfold applyRestoreStep
  rw [removeAppliedStep_next]
  exact applyRestoreCore_next_ne h rc st

theorem applyRestoreStep_applied_ne {k q : String} (h : q ≠ k) (rc : List String) (st : PassSt) :
    olookup (applyRestoreStep rc st k).applied q = olookup st.applied q := by
  unfold applyRestoreStep
  rw [removeAppliedStep_applied_ne h, applyRestoreCore_applied]

theorem applyKeyStep_next_ne {k q : String} (h : q ≠ k) (color : Option String)
    (rc : List String) (cur : Cfg) (st : PassSt) :
    (applyKeyStep color rc cur st k).next q = st.next q := by
  cases color with
  | none => exact applyRestoreStep_next_ne h rc st
  | some c =>
    by_cases hc : c = ""
    · simp only [applyKeyStep, hc, if_pos]
      exact applyRestoreStep_next_ne h rc st
    · simp only [applyKeyStep, if_neg hc]
      split_ifs <;> simp [cset, h]

theorem applyKeyStep_originals_ne {k q : String} (h : q ≠ k) (color : Option String)
    (rc : List String) (cur : Cfg) (st : PassSt) :
    olookup (applyKeyStep color rc cur st k).originals q = olookup st.originals q := by
  cases color with
  | none =>
    simp only [applyKeyStep]
    rw [applyRestoreStep_originals]
  | some c =>
    by_cases hc : c = ""
    · simp only [applyKeyStep, hc, if_pos]
      rw [applyRestoreStep_originals]
    · simp only [applyKeyStep, if_neg hc]
      split_ifs <;> simp [olookup_oset_ne (Ne.symm h)]

theorem applyKeyStep_applied_ne {k q : String} (h : q ≠ k) (color : Option String)
    (rc : List String) (cur : Cfg) (st : PassSt) :
    olookup (applyKeyStep color rc cur st k).applied q = olookup st.applied q := by
  cases color with
  | none => exact applyRestoreStep_applied_ne h rc st
  | some c =>
    by_cases hc : c = ""
    · simp only [applyKeyStep, hc, if_pos]
      exact applyRestoreStep_applied_ne h rc st
    · simp only [applyKeyStep, if_neg hc]
      split_ifs <;> simp [olookup_oset_ne (Ne.symm h)]

theorem cleanupCore_originals (color : Option String) (rc : List String)
    (st : PassSt) (k : String) :
    (cleanupCore color rc st k).originals = st.originals := by
  unfold cleanupCore
  dsimp only
  split <;> first | rfl | (split <;> rfl)

theorem cleanupCore_originalsChanged (color : Option String) (rc : List String)
    (st : PassSt) (k : String) :
    (cleanupCore color rc st k).originalsChanged = st.originalsChanged := by
  unfold cleanupCore
  dsimp only
  split <;> first | rfl | (split <;> rfl)

theorem cleanupCore_applied (color : Option String) (rc : List String)
    (st : PassSt) (k : String) :
    (cleanupCore color rc st k).applied = st.applied := by
  unfold cleanupCore
  dsimp only
  split <;> first | rfl | (split <;> rfl)

theorem cleanupCore_appliedChanged (color : Option String) (rc : List String)
    (st : PassSt) (k : String) :
    (cleanupCore color rc st k).appliedChanged = st.appliedChanged := by
  unfold cleanupCore
  dsimp only
  split <;> first | rfl | (split <;> rfl)

theorem cleanupCore_next_ne {k q : String} (h : q ≠ k) (color : Option String)
    (rc : List String) (st : PassSt) :
    (cleanupCore color rc st k).next q = st.next q := by
  unfold cleanupCore
  dsimp only
  split <;> first | rfl | (split <;> simp [cdel, h])

theorem cleanupKeyStep_originals (color : Option String) (rc ap : List String)
    (st : PassSt) (k : String) :
    (cleanupKeyStep color rc ap st k).originals = st.originals := by
  unfold cleanupKeyStep
  split
  · rfl
  · rw [removeAppliedStep_originals, cleanupCore_originals]

theorem cleanupKeyStep_originalsChanged (color : Option String) (rc ap : List String)
    (st : PassSt) (k : String) :
    (cleanupKeyStep color rc ap st k).originalsChanged = st.originalsChanged := by
  unfold cleanupKeyStep
  split
  · rfl
  · rw [removeAppliedStep_originalsChanged, cleanupCore_originalsChanged]

theorem cleanupKeyStep_next_ne {k q : String} (h : q ≠ k) (color : Option String)
    (rc ap : List String) (st : PassSt) :
    (cleanupKeyStep color rc ap st k).next q = st.next q := by
  unfold cleanupKeyStep
  split
  · rfl
  · rw [removeAppliedStep_next]
    exact cleanupCore_next_ne h color rc st

theorem cleanupKeyStep_applied_ne {k q : String} (h : q ≠ k) (color : Option String)
    (rc ap : List String) (st : PassSt) :
    olookup (cleanupKeyStep color rc ap st k).applied q = olookup st.applied q := by
  unfold cleanupKeyStep
  split
  · rfl
  · rw [removeAppliedStep_applied_ne h, cleanupCore_applied]

theorem cleanupKeyStep_of_contains {ap : List String} {k : String} (hk : ap.contains k = true)
    (color : Option String) (rc : List String) (st : PassSt) :
    cleanupKeyStep color rc ap st k = st := by
  unfold cleanupKeyStep
  rw [if_pos hk]

theorem clearCore_applied (rc : List String) (st : ClearSt) (k : String) :
    (clearCore rc st k).applied = st.applied := by
  unfold clearCore
  split <;> first | rfl | (split <;> rfl)

theorem clearCore_appliedChanged (rc : List String) (st : ClearSt) (k : String) :
    (clearCore rc st k).appliedChanged = st.appliedChanged := by
  unfold clearCore
  split <;> first | rfl | (split <;> rfl)

theorem clearCore_next_ne {k q : String} (h : q ≠ k) (rc : List String) (st : ClearSt) :
    (clearCore rc st k).next q = st.next q := by
  unfold clearCore
  split <;> first | rfl | (split <;> simp [cdel, h])

theorem clearKeyStep_next_ne {k q : String} (h : q ≠ k) (rc : List String)
    (st : ClearSt) : (clearKeyStep rc st k).next q = st.next q := by
  unfold clearKeyStep
  dsimp only
  split
  · exact clearCore_next_ne h rc st
  · exact clearCore_next_ne h rc st

theorem clearKeyStep_applied_ne {k q : String} (h : q ≠ k) (rc : List String)
    (st : ClearSt) : olookup (clearKeyStep rc st k).applied q = olookup st.applied q := by
  unfold clearKeyStep
  dsimp only
  split
  · show olookup (oerase (clearCore rc st k).applied k) q = olookup st.applied q
    rw [olookup_oerase_ne (Ne.symm h), clearCore_applied]
  · rw [clearCore_applied]

theorem restoreKeyStep_fst_ne {k q : String} (h : q ≠ k)
    (o : List (String × OriginalColorEntry)) (a : List (String × String))
    (st : Cfg × Bool) : (restoreKeyStep o a st k).1 q = st.1 q := by
  cases ho : olookup o k with
  | none =>
    cases ha : olookup a k with
    | none => simp [restoreKeyStep, ho, ha]
    | some w =>
      simp only [restoreKeyStep, ho, ha]
      split <;> simp [cdel, h]
  | some e =>
    cases e with
    | missing =>
      simp only [restoreKeyStep, ho]
      split <;> simp [cdel, h]
    | value v =>
      simp only [restoreKeyStep, ho]
      split <;> simp [cset, h]

theorem contains_iff (l : List String) (a : String) : l.contains a = true ↔ a ∈ l := by
  simp

/-! ### Flag lemmas: a pass mutates a component only together with its flag -/

theorem foldl_flag {σ α γ : Type} (step : σ → α → σ) (flag : σ → Bool) (dat : σ → γ)
    (hstep : ∀ st a, flag (step st a) = false → dat (step st a) = dat st ∧ flag st = false) :
    ∀ (l : List α) (st : σ), flag (l.foldl step st) = false →
      dat (l.foldl step st) = dat st ∧ flag st = false
  | [], _, h => ⟨rfl, h⟩
  | a :: l, st, h => by
    simp only [List.foldl_cons] at h ⊢
    obtain ⟨h1, h2⟩ := foldl_flag step flag dat hstep l (step st a) h
    obtain ⟨h3, h4⟩ := hstep st a h2
    exact ⟨h1.trans h3, h4⟩

theorem removeAppliedStep_flag (st : PassSt) (k : String) :
    (removeAppliedStep st k).appliedChanged = false →
      (removeAppliedStep st k).applied = st.applied ∧ st.appliedChanged = false := by
  unfold removeAppliedStep
  split
  · intro hf; simp at hf
  · exact fun hf => ⟨rfl, hf⟩

theorem applyRestoreCore_changed_flag (rc : List String) (st : PassSt) (k : String) :
    (applyRestoreCore rc st k).changed = false →
      (applyRestoreCore rc st k).next = st.next ∧ st.changed = false := by
  unfold applyRestoreCore
  dsimp only
  split
  · intro hf; simp at hf
  · split <;> first
      | exact fun hf => ⟨rfl, hf⟩
      | (split
         · intro hf; simp at hf
         · exact fun hf => ⟨rfl, hf⟩)

theorem applyRestoreStep_changed_flag (rc : List String) (st : PassSt) (k : String) :
    (applyRestoreStep rc st k).changed = false →
      (applyRestoreStep rc st k).next = st.next ∧ st.changed = false := by
  unfold applyRestoreStep
  rw [removeAppliedStep_changed, removeAppliedStep_next]
  exact applyRestoreCore_changed_flag rc st k

theorem applyRestoreStep_applied_flag (rc : List String) (st : PassSt) (k : String) :
    (applyRestoreStep rc st k).appliedChanged = false →
      (applyRestoreStep rc st k).applied = st.applied ∧ st.appliedChanged = false := by
  unfold applyRestoreStep
  intro hf
  obtain ⟨h1, h2⟩ := removeAppliedStep_flag _ k hf
  rw [h1, applyRestoreCore_applied]
  refine ⟨rfl, ?_⟩
  rw [applyRestoreCore_appliedChanged] at h2
  exact h2

theorem applyKeyStep_changed_flag (color : Option String) (rc : List String) (cur : Cfg)
    (st : PassSt) (k : String) :
    (applyKeyStep color rc cur st k).changed = false →
      (applyKeyStep color rc cur st k).next = st.next ∧ st.changed = false := by
  cases color with
  | none => exact applyRestoreStep_changed_flag rc st k
  | some c =>
    by_cases hc : c = ""
    · simp only [applyKeyStep, hc, if_pos]
      exact applyRestoreStep_changed_flag rc st k
    · simp only [applyKeyStep, if_neg hc]
      split_ifs <;> intro hf <;> first | exact ⟨rfl, hf⟩ | simp at hf

theorem applyKeyStep_originals_flag (color : Option String) (rc : List String) (cur : Cfg)
    (st : PassSt) (k : String) :
    (applyKeyStep color rc cur st k).originalsChanged = false →
      (applyKeyStep color rc cur st k).originals = st.originals ∧
        st.originalsChanged = false := by
  cases color with
  | none =>
    intro hf
    refine ⟨applyRestoreStep_originals rc st k, ?_⟩
    rw [← applyRestoreStep_originalsChanged rc st k]
    exact hf
  | some c =>
    by_cases hc : c = ""
    · simp only [applyKeyStep, hc, if_pos]
      intro hf
      refine ⟨applyRestoreStep_originals rc st k, ?_⟩
      rw [← applyRestoreStep_originalsChanged rc st k]
      exact hf
    · simp only [applyKeyStep, if_neg hc]
      split_ifs <;> intro hf <;> first | exact ⟨rfl, hf⟩ | simp at hf

theorem applyKeyStep_applied_flag (color : Option String) (rc : List String) (cur : Cfg)
    (st : PassSt) (k : String) :
    (applyKeyStep color rc cur st k).appliedChanged = false →
      (applyKeyStep color rc cur st k).applied = st.applied ∧ st.appliedChanged = false := by
  cases color with
  | none => exact applyRestoreStep_applied_flag rc st k
  | some c =>
    by_cases hc : c = ""
    · simp only [applyKeyStep, hc, if_pos]
      exact applyRestoreStep_applied_flag rc st k
    · simp only [applyKeyStep, if_neg hc]
      split_ifs <;> intro hf <;> first | exact ⟨rfl, hf⟩ | simp at hf

theorem cleanupCore_changed_flag (color : Option String) (rc : List String)
    (st : PassSt) (k : String) :
    (cleanupCore color rc st k).changed = false →
      (cleanupCore color rc st k).next = st.next ∧ st.changed = false := by
  unfold cleanupCore
  dsimp only
  split <;> first
    | exact fun hf => ⟨rfl, hf⟩
    | (split
       · intro hf; simp at hf
       · exact fun hf => ⟨rfl, hf⟩)

theorem cleanupKeyStep_changed_flag (color : Option String) (rc ap : List String)
    (st : PassSt) (k : String) :
    (cleanupKeyStep color rc ap st k).changed = false →
      (cleanupKeyStep color rc ap st k).next = st.next ∧ st.changed = false := by
  unfold cleanupKeyStep
  split
  · exact fun hf => ⟨rfl, hf⟩
  · rw [removeAppliedStep_changed, removeAppliedStep_next]
    exact cleanupCore_changed_flag color rc st k

theorem cleanupKeyStep_applied_flag (color : Option String) (rc ap : List String)
    (st : PassSt) (k : String) :
    (cleanupKeyStep color rc ap st k).appliedChanged = false →
      (cleanupKeyStep color rc ap st k).applied = st.applied ∧ st.appliedChanged = false := by
  unfold cleanupKeyStep
  split
  · exact fun hf => ⟨rfl, hf⟩
  · intro hf
    obtain ⟨h1, h2⟩ := removeAppliedStep_flag _ k hf
    rw [h1, cleanupCore_applied]
    refine ⟨rfl, ?_⟩
    rw [cleanupCore_appliedChanged] at h2
    exact h2

theorem clearCore_changed_flag (rc : List String) (st : ClearSt) (k : String) :
    (clearCore rc st k).changed = false →
      (clearCore rc st k).next = st.next ∧ st.changed = false := by
  unfold clearCore
  split <;> first
    | exact fun hf => ⟨rfl, hf⟩
    | (split
       · intro hf; simp at hf
       · exact fun hf => ⟨rfl, hf⟩)

theorem clearKeyStep_changed_flag (rc : List String) (st : ClearSt) (k : String) :
    (clearKeyStep rc st k).changed = false →
      (clearKeyStep rc st k).next = st.next ∧ st.changed = false := by
  unfold clearKeyStep
  dsimp only
  split
  · exact clearCore_changed_flag rc st k
  · exact clearCore_changed_flag rc st k

theorem clearKeyStep_applied_flag (rc : List String) (st : ClearSt) (k : String) :
    (clearKeyStep rc st k).appliedChanged = false →
      (clearKeyStep rc st k).applied = st.applied ∧ st.appliedChanged = false := by
  unfold clearKeyStep
  dsimp only
  split
  · intro hf; simp at hf
  · intro hf
    rw [clearCore_applied]
    refine ⟨rfl, ?_⟩
    rw [clearCore_appliedChanged] at hf
    exact hf

theorem restoreKeyStep_flag (o : List (String × OriginalColorEntry))
    (a : List (String × String)) (st : Cfg × Bool) (k : String) :
    (restoreKeyStep o a st k).2 = false →
      (restoreKeyStep o a st k).1 = st.1 ∧ st.2 = false := by
  unfold restoreKeyStep
  split
  · split
    · intro hf; simp at hf
    · exact fun hf => ⟨rfl, hf⟩
  · split
    · intro hf; simp at hf
    · exact fun hf => ⟨rfl, hf⟩
  · split
    · split
      · intro hf; simp at hf
      · exact fun hf => ⟨rfl, hf⟩
    · exact fun hf => ⟨rfl, hf⟩

/-! ### Fold-level lemmas -/

theorem foldl_apply_ne {q : String} {l : List String} (hq : q ∉ l) (color : Option String)
    (rc : List String) (cur : Cfg) (st : PassSt) :
    (l.foldl (applyKeyStep color rc cur) st).next q = st.next q ∧
      olookup (l.foldl (applyKeyStep color rc cur) st).originals q = olookup st.originals q ∧
      olookup (l.foldl (applyKeyStep color rc cur) st).applied q = olookup st.applied q := by
  refine foldl_pres (p := fun t => t.next q = st.next q ∧
    olookup t.originals q = olookup st.originals q ∧
    olookup t.applied q = olookup st.applied q) _ l st (fun t a ha hp => ?_) ⟨rfl, rfl, rfl⟩
  have hqa : q ≠ a := fun h => hq (h ▸ ha)
  exact ⟨(applyKeyStep_next_ne hqa _ _ _ _).trans hp.1,
    (applyKeyStep_originals_ne hqa _ _ _ _).trans hp.2.1,
    (applyKeyStep_applied_ne hqa _ _ _ _).trans hp.2.2⟩

theorem foldl_cleanup_ne {q : String} {l : List String} (hq : q ∉ l) (color : Option String)
    (rc ap : List String) (st : PassSt) :
    (l.foldl (cleanupKeyStep color rc ap) st).next q = st.next q ∧
      olookup (l.foldl (cleanupKeyStep color rc ap) st).originals q = olookup st.originals q ∧
      olookup (l.foldl (cleanupKeyStep color rc ap) st).applied q = olookup st.applied q := by
  refine foldl_pres (p := fun t => t.next q = st.next q ∧
    olookup t.originals q = olookup st.originals q ∧
    olookup t.applied q = olookup st.applied q) _ l st (fun t a ha hp => ?_) ⟨rfl, rfl, rfl⟩
  have hqa : q ≠ a := fun h => hq (h ▸ ha)
  exact ⟨(cleanupKeyStep_next_ne hqa _ _ _ _).trans hp.1,
    ((congrArg (fun m => olookup m q) (cleanupKeyStep_originals _ _ _ _ _)).trans hp.2.1),
    (cleanupKeyStep_applied_ne hqa _ _ _ _).trans hp.2.2⟩

theorem foldl_cleanup_skip {q : String} {ap : List String} (hq : ap.contains q = true)
    (color : Option String) (rc : List String) (l : List String) (st : PassSt) :
    (l.foldl (cleanupKeyStep color rc ap) st).next q = st.next q ∧
      olookup (l.foldl (cleanupKeyStep color rc ap) st).originals q = olookup st.originals q ∧
      olookup (l.foldl (cleanupKeyStep color rc ap) st).applied q = olookup st.applied q := by
  refine foldl_pres (p := fun t => t.next q = st.next q ∧
    olookup t.originals q = olookup st.originals q ∧
    olookup t.applied q = olookup st.applied q) _ l st (fun t a _ hp => ?_) ⟨rfl, rfl, rfl⟩
  by_cases haq : a = q
  · subst haq
    rw [cleanupKeyStep_of_contains hq]
    exact hp
  · have hqa : q ≠ a := fun h => haq h.symm
    exact ⟨(cleanupKeyStep_next_ne hqa _ _ _ _).trans hp.1,
      ((congrArg (fun m => olookup m q) (cleanupKeyStep_originals _ _ _ _ _)).trans hp.2.1),
      (cleanupKeyStep_applied_ne hqa _ _ _ _).trans hp.2.2⟩

theorem foldl_cleanup_originals (color : Option String) (rc ap : List String)
    (l : List String) (st : PassSt) :
    (l.foldl (cleanupKeyStep color rc ap) st).originals = st.originals := by
  exact foldl_pres (p := fun t => t.originals = st.originals) _ l st
    (fun t a _ hp => (cleanupKeyStep_originals _ _ _ _ _).trans hp) rfl

theorem foldl_cleanup_originalsChanged (color : Option String) (rc ap : List String)
    (l : List String) (st : PassSt) :
    (l.foldl (cleanupKeyStep color rc ap) st).originalsChanged = st.originalsChanged := by
  exact foldl_pres (p := fun t => t.originalsChanged = st.originalsChanged) _ l st
    (fun t a _ hp => (cleanupKeyStep_originalsChanged _ _ _ _ _).trans hp) rfl

/-- If the `changed` flag is still false after a pass, the working copy of the
configuration was not mutated. -/
theorem applyColorModel_unchanged_next {color : Option String} {rules : List BranchRule}
    {targets : ColorTargets} {cfg : Cfg} {o : List (String × OriginalColorEntry)}
    {a : List (String × String)}
    (h : (applyColorModel color rules targets cfg o a).changed = false) :
    (applyColorModel color rules targets cfg o a).next = cfg := by
  unfold applyColorModel at h ⊢
  obtain ⟨h1, h2⟩ := foldl_flag _ (fun t => t.changed) (fun t => t.next)
    (fun st k => cleanupKeyStep_changed_flag _ _ _ st k) _ _ h
  obtain ⟨h3, _⟩ := foldl_flag _ (fun t => t.changed) (fun t => t.next)
    (fun st k => applyKeyStep_changed_flag _ _ _ st k) _ _ h2
  exact h1.trans h3

theorem applyColorModel_unchanged_originals {color : Option String} {rules : List BranchRule}
    {targets : ColorTargets} {cfg : Cfg} {o : List (String × OriginalColorEntry)}
    {a : List (String × String)}
    (h : (applyColorModel color rules targets cfg o a).originalsChanged = false) :
    (applyColorModel color rules targets cfg o a).originals = o := by
  unfold applyColorModel at h ⊢
  obtain ⟨h1, h2⟩ := foldl_flag _ (fun t => t.originalsChanged) (fun t => t.originals)
    (fun st k => fun hf => ⟨cleanupKeyStep_originals _ _ _ st k,
      ((cleanupKeyStep_originalsChanged _ _ _ st k).symm.trans hf)⟩) _ _ h
  obtain ⟨h3, _⟩ := foldl_flag _ (fun t => t.originalsChanged) (fun t => t.originals)
    (fun st k => applyKeyStep_originals_flag _ _ _ st k) _ _ h2
  exact h1.trans h3

theorem applyColorModel_unchanged_applied {color : Option String} {rules : List BranchRule}
    {targets : ColorTargets} {cfg : Cfg} {o : List (String × OriginalColorEntry)}
    {a : List (String × String)}
    (h : (applyColorModel color rules targets cfg o a).appliedChanged = false) :
    (applyColorModel color rules targets cfg o a).applied = a := by
  unfold applyColorModel at h ⊢
  obtain ⟨h1, h2⟩ := foldl_flag _ (fun t => t.appliedChanged) (fun t => t.applied)
    (fun st k => cleanupKeyStep_applied_flag _ _ _ st k) _ _ h
  obtain ⟨h3, _⟩ := foldl_flag _ (fun t => t.appliedChanged) (fun t => t.applied)
    (fun st k => applyKeyStep_applied_flag _ _ _ st k) _ _ h2
  exact h1.trans h3

/-- One apply-loop iteration with a truthy color leaves its key set to the
color in the working copy and in the applied store, whatever the prior state. -/
theorem applyKeyStep_establish {c : String} (hc : c ≠ "") (k : String) (rc : List String)
    (cur : Cfg) (st : PassSt) :
    (applyKeyStep (some c) rc cur st k).next k = some (.str c) ∧
      olookup (applyKeyStep (some c) rc cur st k).applied k = some c := by
  simp only [applyKeyStep, if_neg hc]
  split_ifs with h1 h2 h3 <;> simp_all [cset, olookup_oset_self]

theorem foldl_apply_establish {c k : String} (hc : c ≠ "") (rc : List String) (cur : Cfg) :
    ∀ (l : List String), k ∈ l → ∀ st : PassSt,
      (l.foldl (applyKeyStep (some c) rc cur) st).next k = some (.str c) ∧
        olookup (l.foldl (applyKeyStep (some c) rc cur) st).applied k = some c
  | [], hk, _ => absurd hk (List.not_mem_nil k)
  | a :: l, hk, st => by
    simp only [List.foldl_cons]
    by_cases hkl : k ∈ l
    · exact foldl_apply_establish hc rc cur l hkl _
    · have hka : k = a := by
        rcases List.mem_cons.mp hk with h | h
        · exact h
        · exact absurd h hkl
      subst hka
      refine foldl_pres (p := fun t : PassSt =>
          t.next k = some (.str c) ∧ olookup t.applied k = some c)
        _ l _ (fun t b hb hp => ?_) (applyKeyStep_establish hc k rc cur st)
      have hkb : k ≠ b := fun h => hkl (h ▸ hb)
      exact ⟨(applyKeyStep_next_ne hkb _ _ _ _).trans hp.1,
        (applyKeyStep_applied_ne hkb _ _ _ _).trans hp.2⟩

/-- After a pass with a truthy resolved color, every apply key holds the color
in the working configuration copy and in the applied store. -/
theorem applyColorModel_applies {c k : String} (hc : c ≠ "") {targets : ColorTargets}
    (hk : k ∈ targets.apply) (rules : List BranchRule) (cfg : Cfg)
    (o : List (String × OriginalColorEntry)) (a : List (String × String)) :
    (applyColorModel (some c) rules targets cfg o a).next k = some (.str c) ∧
      olookup (applyColorModel (some c) rules targets cfg o a).applied k = some c := by
  unfold applyColorModel
  have h1 := foldl_apply_establish hc (rules.map fun r => r.color) cfg targets.apply hk
    ⟨cfg, o, a, false, false, false⟩
  have h2 := foldl_cleanup_skip ((contains_iff _ _).mpr hk) (some c)
    (rules.map fun r => r.color) targets.cleanup
    (targets.apply.foldl (applyKeyStep (some c) (rules.map fun r => r.color) cfg)
      ⟨cfg, o, a, false, false, false⟩)
  exact ⟨h2.1.trans h1.1, h2.2.2.trans h1.2⟩

/-! ### Projections of `updateColorsModel` through the persist-only-if-changed writes -/

theorem updateColorsModel_cfg (rt : String → String → Option Bool) (b : Option String)
    (raw : List BranchRule) (keys : List String) (cfg : Cfg) (ws : WS) :
    (updateColorsModel rt b raw keys cfg ws).cfg = (passOf rt b raw keys cfg ws).next := by
  show (if (passOf rt b raw keys cfg ws).changed then (passOf rt b raw keys cfg ws).next
    else cfg) = (passOf rt b raw keys cfg ws).next
  by_cases h : (passOf rt b raw keys cfg ws).changed
  · rw [if_pos h]
  · rw [if_neg h]
    have hb : (passOf rt b raw keys cfg ws).changed = false := by
      revert h
      cases (passOf rt b raw keys cfg ws).changed <;> simp
    exact (applyColorModel_unchanged_next hb).symm

theorem updateColorsModel_originals (rt : String → String → Option Bool) (b : Option String)
    (raw : List BranchRule) (keys : List String) (cfg : Cfg) (ws : WS) :
    (updateColorsModel rt b raw keys cfg ws).ws.originals =
      (passOf rt b raw keys cfg ws).originals := by
  show (if (passOf rt b raw keys cfg ws).originalsChanged
    then (passOf rt b raw keys cfg ws).originals else ws.originals) =
    (passOf rt b raw keys cfg ws).originals
  by_cases h : (passOf rt b raw keys cfg ws).originalsChanged
  · rw [if_pos h]
  · rw [if_neg h]
    have hb : (passOf rt b raw keys cfg ws).originalsChanged = false := by
      revert h
      cases (passOf rt b raw keys cfg ws).originalsChanged <;> simp
    exact (applyColorModel_unchanged_originals hb).symm

theorem updateColorsModel_applied (rt : String → String → Option Bool) (b : Option String)
    (raw : List BranchRule) (keys : List String) (cfg : Cfg) (ws : WS) :
    (updateColorsModel rt b raw keys cfg ws).ws.applied =
      (passOf rt b raw keys cfg ws).applied := by
  show (if (passOf rt b raw keys cfg ws).appliedChanged
    then (passOf rt b raw keys cfg ws).applied else ws.applied) =
    (passOf rt b raw keys cfg ws).applied
  by_cases h : (passOf rt b raw keys cfg ws).appliedChanged
  · rw [if_pos h]
  · rw [if_neg h]
    have hb : (passOf rt b raw keys cfg ws).appliedChanged = false := by
      revert h
      cases (passOf rt b raw keys cfg ws).appliedChanged <;> simp
    exact (applyColorModel_unchanged_applied hb).symm

theorem updateColorsModel_lastKeys (rt : String → String → Option Bool) (b : Option String)
    (raw : List BranchRule) (keys : List String) (cfg : Cfg) (ws : WS) :
    (updateColorsModel rt b raw keys cfg ws).ws.lastKeys =
      (getColorTargetsModel keys ws.lastKeys).apply := rfl

theorem updateColorsModel_cfgWritten (rt : String → String → Option Bool) (b : Option String)
    (raw : List BranchRule) (keys : List String) (cfg : Cfg) (ws : WS) :
    (updateColorsModel rt b raw keys cfg ws).cfgWritten =
      (passOf rt b raw keys cfg ws).changed := rfl

theorem updateColorsModel_originalsWritten (rt : String → String → Option Bool)
    (b : Option String) (raw : List BranchRule) (keys : List String) (cfg : Cfg) (ws : WS) :
    (updateColorsModel rt b raw keys cfg ws).originalsWritten =
      (passOf rt b raw keys cfg ws).originalsChanged := rfl

theorem updateColorsModel_appliedWritten (rt : String → String → Option Bool)
    (b : Option String) (raw : List BranchRule) (keys : List String) (cfg : Cfg) (ws : WS) :
    (updateColorsModel rt b raw keys cfg ws).appliedWritten =
      (passOf rt b raw keys cfg ws).appliedChanged := rfl

/-! ### Per-key outcomes of the apply loop -/

theorem applyKeyStep_none (rc : List String) (cur : Cfg) (st : PassSt) (k : String) :
    applyKeyStep none rc cur st k = applyRestoreStep rc st k := rfl

theorem applyRestoreStep_missing {k : String} {st : PassSt}
    (h : olookup st.originals k = some .missing) (rc : List String) :
    (applyRestoreStep rc st k).next k = none := by
  unfold applyRestoreStep
  rw [removeAppliedStep_next]
  unfold applyRestoreCore
  simp only [restoreOriginalFn, h]
  by_cases hp : (st.next k).isSome
  · simp [hp, cdel]
  · rw [Option.not_isSome_iff_eq_none] at hp
    simp [hp]

theorem applyRestoreStep_value_ne {k : String} {v : CVal} {st : PassSt}
    (h : olookup st.originals k = some (.value v)) (hne : st.next k ≠ some v)
    (rc : List String) : (applyRestoreStep rc st k).next k = some v := by
  unfold applyRestoreStep
  rw [removeAppliedStep_next]
  unfold applyRestoreCore
  simp [restoreOriginalFn, h, hne, cset]

theorem applyRestoreStep_value_eq {k : String} {v : CVal} {st : PassSt}
    (h : olookup st.originals k = some (.value v)) (heq : st.next k = some v)
    (rc : List String) :
    (applyRestoreStep rc st k).next k =
      if heurDelete rc st.applied k (some v) then none else some v := by
  unfold applyRestoreStep
  rw [removeAppliedStep_next]
  unfold applyRestoreCore
  simp only [restoreOriginalFn, h, heq]
  cases v with
  | str s =>
    simp only [heurDelete, heq]
    split_ifs <;> simp_all [cdel, cset]
  | other n => simp [heurDelete, heq]

theorem applyRestoreStep_no_orig {k : String} {st : PassSt}
    (h : olookup st.originals k = none) (rc : List String) :
    (applyRestoreStep rc st k).next k =
      if heurDelete rc st.applied k (st.next k) then none else st.next k := by
  unfold applyRestoreStep
  rw [removeAppliedStep_next]
  unfold applyRestoreCore
  simp only [restoreOriginalFn, h]
  cases hv : st.next k with
  | none => simp [heurDelete, hv]
  | some w =>
    cases w with
    | str s =>
      simp only [heurDelete, hv]
      split_ifs <;> simp_all [cdel, cset]
    | other n => simp [heurDelete, hv]

theorem applyRestoreStep_applied_self (rc : List String) (st : PassSt) (k : String) :
    olookup (applyRestoreStep rc st k).applied k = none := by
  unfold applyRestoreStep removeAppliedStep
  split
  · exact olookup_oerase_self _ _
  · rename_i hns
    simpa using hns

/-! ### Recording and keeping `originals` entries -/

theorem applyKeyStep_remember {c k : String} (hc : c ≠ "") {st : PassSt}
    (h0 : olookup st.originals k = none) (hv : st.next k ≠ some (.str c))
    (rc : List String) (cur : Cfg) :
    olookup (applyKeyStep (some c) rc cur st k).originals k = some (entryOf (cur k)) := by
  simp only [applyKeyStep, if_neg hc]
  split_ifs <;> simp_all [olookup_oset_self]

theorem applyKeyStep_originals_keep {k : String} {st : PassSt}
    (h : (olookup st.originals k).isSome) (color : Option String) (rc : List String)
    (cur : Cfg) :
    olookup (applyKeyStep color rc cur st k).originals k = olookup st.originals k := by
  cases color with
  | none => rw [applyKeyStep_none, applyRestoreStep_originals]
  | some c =>
    by_cases hc : c = ""
    · simp only [applyKeyStep, hc, if_pos]
      rw [applyRestoreStep_originals]
    · simp only [applyKeyStep, if_neg hc]
      split_ifs <;> simp_all

theorem applyKeyStep_originals_cases (color : Option String) (rc : List String) (cur : Cfg)
    (st : PassSt) (k : String) :
    olookup (applyKeyStep color rc cur st k).originals k = olookup st.originals k ∨
      olookup (applyKeyStep color rc cur st k).originals k = some (entryOf (cur k)) := by
  cases color with
  | none =>
    left
    rw [applyKeyStep_none, applyRestoreStep_originals]
  | some c =>
    by_cases hc : c = ""
    · left
      simp only [applyKeyStep, hc, if_pos]
      rw [applyRestoreStep_originals]
    · simp only [applyKeyStep, if_neg hc]
      split_ifs <;> first | (left; rfl) | (right; exact olookup_oset_self _ _ _)

theorem foldl_apply_originals_keep {k : String} {e : OriginalColorEntry}
    (color : Option String) (rc : List String) (cur : Cfg) (l : List String) (st : PassSt)
    (h : olookup st.originals k = some e) :
    olookup (l.foldl (applyKeyStep color rc cur) st).originals k = some e := by
  refine foldl_pres (p := fun t : PassSt => olookup t.originals k = some e) _ l st
    (fun t a _ hp => ?_) h
  by_cases hak : a = k
  · subst hak
    exact (applyKeyStep_originals_keep (by rw [hp]; rfl) color rc cur).trans hp
  · exact (applyKeyStep_originals_ne (fun hh => hak hh.symm) _ _ _ _).trans hp

/-- Entries already recorded in `originals` survive any normal pass untouched. -/
theorem applyColorModel_originals_keep {k : String} {e : OriginalColorEntry}
    (color : Option String) (rules : List BranchRule) (targets : ColorTargets) (cfg : Cfg)
    (o : List (String × OriginalColorEntry)) (a : List (String × String))
    (h : olookup o k = some e) :
    olookup (applyColorModel color rules targets cfg o a).originals k = some e := by
  unfold applyColorModel
  have h1 := foldl_apply_originals_keep color (rules.map fun r => r.color) cfg targets.apply
    ⟨cfg, o, a, false, false, false⟩ h
  have h2 := foldl_cleanup_originals color (rules.map fun r => r.color) targets.apply
    targets.cleanup (targets.apply.foldl (applyKeyStep color (rules.map fun r => r.color) cfg)
      ⟨cfg, o, a, false, false, false⟩)
  exact (congrArg (fun m => olookup m k) h2).trans h1

theorem foldl_apply_remember {c k : String} (hc : c ≠ "") (rc : List String) (cur : Cfg) :
    ∀ (l : List String), k ∈ l → ∀ st : PassSt,
      ((st.next k = cur k ∧ olookup st.originals k = none) ∨
        olookup st.originals k = some (entryOf (cur k))) →
      cur k ≠ some (.str c) →
      olookup (l.foldl (applyKeyStep (some c) rc cur) st).originals k = some (entryOf (cur k))
  | [], hk, _, _, _ => absurd hk (List.not_mem_nil k)
  | a :: l, hk, st, hQ, hv => by
    simp only [List.foldl_cons]
    by_cases hkl : k ∈ l
    · refine foldl_apply_remember hc rc cur l hkl _ ?_ hv
      by_cases hak : a = k
      · subst hak
        rcases hQ with ⟨hn, ho⟩ | ho
        · exact Or.inr (applyKeyStep_remember hc ho (fun hh => hv (hn.symm.trans hh)) rc cur)
        · exact Or.inr ((applyKeyStep_originals_keep (by rw [ho]; rfl) _ rc cur).trans ho)
      · rcases hQ with ⟨hn, ho⟩ | ho
        · exact Or.inl ⟨(applyKeyStep_next_ne (fun hh => hak hh.symm) _ _ _ _).trans hn,
            (applyKeyStep_originals_ne (fun hh => hak hh.symm) _ _ _ _).trans ho⟩
        · exact Or.inr ((applyKeyStep_originals_ne (fun hh => hak hh.symm) _ _ _ _).trans ho)
    · have hka : k = a := by
        rcases List.mem_cons.mp hk with h | h
        · exact h
        · exact absurd h hkl
      subst hka
      have hstep : olookup (applyKeyStep (some c) rc cur st k).originals k =
          some (entryOf (cur k)) := by
        rcases hQ with ⟨hn, ho⟩ | ho
        · exact applyKeyStep_remember hc ho (fun hh => hv (hn.symm.trans hh)) rc cur
        · exact ((applyKeyStep_originals_keep (by rw [ho]; rfl) _ rc cur).trans ho)
      exact foldl_apply_originals_keep _ _ _ l _ hstep

/-- A pass with a truthy color anchors `originals[k]` to the snapshot value of
`k` whenever no entry existed and the snapshot value differs from the color. -/
theorem applyColorModel_remember {c k : String} (hc : c ≠ "") {targets : ColorTargets}
    (hk : k ∈ targets.apply) (rules : List BranchRule) (cfg : Cfg)
    (o : List (String × OriginalColorEntry)) (a : List (String × String))
    (h0 : olookup o k = none) (hv : cfg k ≠ some (.str c)) :
    olookup (applyColorModel (some c) rules targets cfg o a).originals k =
      some (entryOf (cfg k)) := by
  unfold applyColorModel
  have h1 := foldl_apply_remember hc (rules.map fun r => r.color) cfg targets.apply hk
    ⟨cfg, o, a, false, false, false⟩ (Or.inl ⟨rfl, h0⟩) hv
  have h2 := foldl_cleanup_originals (some c) (rules.map fun r => r.color) targets.apply
    targets.cleanup (targets.apply.foldl (applyKeyStep (some c)
      (rules.map fun r => r.color) cfg) ⟨cfg, o, a, false, false, false⟩)
  exact (congrArg (fun m => olookup m k) h2).trans h1

/-- In a pass started with empty `originals`, every recorded entry is the
snapshot value of its key. -/
theorem applyColorModel_fresh_originals {k : String} {e : OriginalColorEntry}
    (color : Option String) (rules : List BranchRule) (targets : ColorTargets) (cfg : Cfg)
    (a : List (String × String))
    (he : olookup (applyColorModel color rules targets cfg [] a).originals k = some e) :
    e = entryOf (cfg k) := by
  unfold applyColorModel at he
  have h2 := foldl_cleanup_originals color (rules.map fun r => r.color) targets.apply
    targets.cleanup (targets.apply.foldl (applyKeyStep color (rules.map fun r => r.color) cfg)
      ⟨cfg, [], a, false, false, false⟩)
  rw [show (olookup (targets.cleanup.foldl (cleanupKeyStep color
      (rules.map fun r => r.color) targets.apply) (targets.apply.foldl (applyKeyStep color
      (rules.map fun r => r.color) cfg) ⟨cfg, [], a, false, false, false⟩)).originals k) =
      (olookup (targets.apply.foldl (applyKeyStep color (rules.map fun r => r.color) cfg)
      ⟨cfg, [], a, false, false, false⟩).originals k) from congrArg (fun m => olookup m k) h2]
    at he
  have hfold : ∀ (l : List String) (st : PassSt),
      (∀ w, olookup st.originals k = some w → w = entryOf (cfg k)) →
      ∀ w, olookup (l.foldl (applyKeyStep color (rules.map fun r => r.color) cfg) st).originals
        k = some w → w = entryOf (cfg k) := by
    intro l st hst
    refine foldl_pres (p := fun t : PassSt =>
      ∀ w, olookup t.originals k = some w → w = entryOf (cfg k)) _ l st
      (fun t b _ hp => ?_) hst
    by_cases hbk : b = k
    · subst hbk
      rcases applyKeyStep_originals_cases color (rules.map fun r => r.color) cfg t b with
        hcase | hcase
      · intro w hw
        rw [hcase] at hw
        exact hp w hw
      · intro w hw
        rw [hcase] at hw
        exact (Option.some_inj.mp hw).symm
    · intro w hw
      rw [applyKeyStep_originals_ne (fun hh => hbk hh.symm) _ _ _ _] at hw
      exact hp w hw
  exact hfold targets.apply ⟨cfg, [], a, false, false, false⟩
    (fun w hw => by simp [olookup] at hw) e he

/-! ### Rule matching and the resolved color -/

theorem findMatchingRule_eq_spec (rt : String → String → Option Bool) (bn : String) :
    ∀ rules : List BranchRule, findMatchingRule rt bn rules = findMatchingRuleSpec rt bn rules
  | [] => rfl
  | r :: rest => by
    cases hrt : rt r.pattern bn with
    | none =>
      simp only [findMatchingRule, findMatchingRuleSpec, hrt]
      rw [List.find?_cons_of_neg _ (by simp [hrt])]
      exact findMatchingRule_eq_spec rt bn rest
    | some b =>
      cases b with
      | true =>
        simp only [findMatchingRule, findMatchingRuleSpec, hrt]
        rw [List.find?_cons_of_pos _ (by simp [hrt])]
      | false =>
        simp only [findMatchingRule, findMatchingRuleSpec, hrt]
        rw [List.find?_cons_of_neg _ (by simp [hrt])]
        exact findMatchingRule_eq_spec rt bn rest

theorem findMatchingRule_mem {rt : String → String → Option Bool} {bn : String}
    {rules : List BranchRule} {r : BranchRule}
    (h : findMatchingRule rt bn rules = some r) : r ∈ rules :=
  List.mem_of_find?_eq_some ((findMatchingRule_eq_spec rt bn rules).symm.trans h)

theorem getRulesModel_color_ne {raw : List BranchRule} {r : BranchRule}
    (hr : r ∈ getRulesModel raw) : r.color ≠ "" := by
  intro hc
  unfold getRulesModel at hr
  have h2 := (List.mem_filter.mp hr).2
  rw [hc] at h2
  simp at h2

theorem resolvedColor_ne_empty {rt : String → String → Option Bool} {b : Option String}
    {raw : List BranchRule} {c : String}
    (h : resolvedColor rt b (getRulesModel raw) = some c) : c ≠ "" := by
  cases b with
  | none => simp [resolvedColor] at h
  | some bn =>
    simp only [resolvedColor] at h
    by_cases hbn : bn = ""
    · rw [if_pos hbn] at h
      simp at h
    · rw [if_neg hbn] at h
      cases hf : findMatchingRule rt bn (getRulesModel raw) with
      | none => rw [hf] at h; simp at h
      | some r =>
        rw [hf] at h
        simp at h
        have hcne := getRulesModel_color_ne (findMatchingRule_mem hf)
        rw [← h]
        exact hcne

/-! ### Claim theorems -/

/-- **C8.** Rule matching returns the first rule in the ordered list whose
pattern, compiled as a regular expression, matches the branch name (stated as
equality with the specification-side first-match search, which also yields
absence when no rule matches); the resolved color is absent when the branch
name is absent; and a rule whose pattern fails to compile is skipped without
aborting — one diagnostic is recorded — and matching continues with the
remaining rules in order. -/
theorem C8_rule_matching (rt : String → String → Option Bool) (bn : String)
    (rules rest : List BranchRule) (r : BranchRule) :
    findMatchingRule rt bn rules = findMatchingRuleSpec rt bn rules ∧
      resolvedColor rt none rules = none ∧
      (rt r.pattern bn = none →
        findMatchingRule rt bn (r :: rest) = findMatchingRule rt bn rest ∧
          findMatchingRuleDiags rt bn (r :: rest) =
            r.pattern :: findMatchingRuleDiags rt bn rest) := by
  refine ⟨findMatchingRule_eq_spec rt bn rules, rfl, fun hn => ⟨?_, ?_⟩⟩
  · simp [findMatchingRule, hn]
  · simp [findMatchingRuleDiags, hn]

/-- Witness for C8 at a concrete oracle whose single pattern fails to compile. -/
theorem C8_rule_matching_witness :
    findMatchingRule (fun _ _ => none) "b" [⟨"p", "#A"⟩] =
        findMatchingRule (fun _ _ => none) "b" [] ∧
      findMatchingRuleDiags (fun _ _ => none) "b" [⟨"p", "#A"⟩] =
        "p" :: findMatchingRuleDiags (fun _ _ => none) "b" [] :=
  (C8_rule_matching (fun _ _ => none) "b" [] [] ⟨"p", "#A"⟩).2.2 rfl

/-- **C4.** After a normal reconciliation pass whose resolved color is `c`,
every key of the apply set maps to `c` in the resulting external
configuration and in the applied store. -/
theorem C4_color_applied (c k : String) (rt : String → String → Option Bool)
    (b : Option String) (raw : List BranchRule) (keys : List String) (cfg : Cfg) (ws : WS)
    (hc : resolvedColor rt b (getRulesModel raw) = some c)
    (hk : k ∈ (getColorTargetsModel keys ws.lastKeys).apply) :
    (updateColorsModel rt b raw keys cfg ws).cfg k = some (.str c) ∧
      olookup (updateColorsModel rt b raw keys cfg ws).ws.applied k = some c := by
  have hcne : c ≠ "" := resolvedColor_ne_empty hc
  rw [updateColorsModel_cfg, updateColorsModel_applied]
  unfold passOf
  rw [hc]
  exact applyColorModel_applies hcne hk _ _ _ _

/-- Witness for C4 on a concrete matching branch. -/
theorem C4_color_applied_witness :
    (updateColorsModel (fun p q => some (p == q)) (some "main") [⟨"main", "#FF0000"⟩] ["K"]
        (fun _ => none) ⟨[], [], []⟩).cfg "K" = some (.str "#FF0000") ∧
      olookup (updateColorsModel (fun p q => some (p == q)) (some "main")
        [⟨"main", "#FF0000"⟩] ["K"] (fun _ => none) ⟨[], [], []⟩).ws.applied "K" =
        some "#FF0000" :=
  C4_color_applied "#FF0000" "K" (fun p q => some (p == q)) (some "main")
    [⟨"main", "#FF0000"⟩] ["K"] (fun _ => none) ⟨[], [], []⟩ (by decide) (by decide)

/-- **C3 counterexample.** With a resolved color equal to the key's current
external value, the pass records no `originals` entry for that key, although
the key is in the apply set and had no entry before — the claim asserts an
entry exists after the pass. -/
theorem C3_counterexample :
    olookup (applyColorModel (some "#FF0000") [⟨"^main$", "#FF0000"⟩] ⟨["K"], ["K"]⟩
      (fun q => if q = "K" then some (.str "#FF0000") else none) [] []).originals "K" =
      none := by decide

/-- **C3 (amended).** Anchoring holds for keys whose external value differs
from the resolved color: for such a key with no prior entry, the pass records
exactly the snapshot value (`Value v` if present, `Missing` if absent); and an
existing `originals` entry is never overwritten by any later normal pass. -/
theorem C3_anchoring (c k : String) (hc : c ≠ "") (targets : ColorTargets)
    (hk : k ∈ targets.apply) (rules : List BranchRule) (cfg : Cfg)
    (o : List (String × OriginalColorEntry)) (a : List (String × String))
    (h0 : olookup o k = none) (hv : cfg k ≠ some (.str c)) :
    olookup (applyColorModel (some c) rules targets cfg o a).originals k =
        some (entryOf (cfg k)) ∧
      ∀ (color2 : Option String) (rules2 : List BranchRule) (targets2 : ColorTargets)
        (cfg2 : Cfg) (o2 : List (String × OriginalColorEntry))
        (a2 : List (String × String)) (e : OriginalColorEntry), olookup o2 k = some e →
        olookup (applyColorModel color2 rules2 targets2 cfg2 o2 a2).originals k = some e :=
  ⟨applyColorModel_remember hc hk rules cfg o a h0 hv,
   fun color2 rules2 targets2 cfg2 o2 a2 _ he =>
     applyColorModel_originals_keep color2 rules2 targets2 cfg2 o2 a2 he⟩

/-- Witness for the amended C3: an absent key is recorded as `Missing`, and a
recorded entry survives a later pass. -/
theorem C3_anchoring_witness :
    olookup (applyColorModel (some "#FF0000") [] ⟨["K"], ["K"]⟩ (fun _ => none)
        [] []).originals "K" = some (entryOf ((fun _ => none : Cfg) "K")) ∧
      olookup (applyColorModel none [] ⟨["K"], ["K"]⟩ (fun _ => none)
        [("K", .missing)] []).originals "K" = some .missing := by
  have h := C3_anchoring "#FF0000" "K" (by decide) ⟨["K"], ["K"]⟩ (by decide) []
    (fun _ => none) [] [] (by decide) (by decide)
  exact ⟨h.1, h.2 none [] ⟨["K"], ["K"]⟩ (fun _ => none) [("K", .missing)] [] .missing
    (by decide)⟩

/-- **C9 counterexample.** While the applying flag is set, an event affecting
the rule settings is not ignored: the listener still dispatches a normal
update pass, contradicting "every configuration-change event is ignored". -/
theorem C9_counterexample :
    configChangeListener true ⟨true, false, false, false⟩ ≠ ListenerAction.ignore := by
  decide

/-- **C9 (amended).** While the applying flag is set the rebase path never
fires, and events affecting only the theme or the color customizations — the
only sections the engine's own writes touch — are ignored entirely; events
affecting the rule or target-key settings still dispatch a normal update. -/
theorem C9_guard (e : CfgChangeEvent) :
    configChangeListener true e ≠ ListenerAction.runRebase ∧
      (e.affectsRules = false → e.affectsTargetKeys = false →
        configChangeListener true e = ListenerAction.ignore) := by
  rcases e with ⟨r, t, th, cc⟩
  cases r <;> cases t <;> cases th <;> cases cc <;> exact ⟨by decide, by decide⟩

/-- Witness for the amended C9 at a concrete self-authored-write event. -/
theorem C9_guard_witness :
    configChangeListener true ⟨false, false, true, true⟩ ≠ ListenerAction.runRebase ∧
      configChangeListener true ⟨false, false, true, true⟩ = ListenerAction.ignore :=
  ⟨(C9_guard ⟨false, false, true, true⟩).1, (C9_guard ⟨false, false, true, true⟩).2 rfl rfl⟩

theorem foldl_clear_ne {q : String} {l : List String} (hq : q ∉ l) (rc : List String)
    (st : ClearSt) :
    (l.foldl (clearKeyStep rc) st).next q = st.next q ∧
      olookup (l.foldl (clearKeyStep rc) st).applied q = olookup st.applied q := by
  refine foldl_pres (p := fun t : ClearSt => t.next q = st.next q ∧
    olookup t.applied q = olookup st.applied q) _ l st (fun t a ha hp => ?_) ⟨rfl, rfl⟩
  have hqa : q ≠ a := fun h => hq (h ▸ ha)
  exact ⟨(clearKeyStep_next_ne hqa _ _).trans hp.1,
    (clearKeyStep_applied_ne hqa _ _).trans hp.2⟩

/-- **C10.** Frame property: a normal reconciliation pass and the heuristic
cleanup only touch keys in `targets.apply ∪ targets.cleanup`; any other key
keeps its snapshot presence and value in the written-back mapping. -/
theorem C10_frame (q : String) (color : Option String) (rules : List BranchRule)
    (targets : ColorTargets) (cfg : Cfg) (o : List (String × OriginalColorEntry))
    (a b : List (String × String))
    (h1 : q ∉ targets.apply) (h2 : q ∉ targets.cleanup) :
    (applyColorModel color rules targets cfg o a).next q = cfg q ∧
      (clearBranchOverridesModel rules targets cfg b).cfg q = cfg q := by
  constructor
  · unfold applyColorModel
    have ha := foldl_apply_ne h1 color (rules.map fun r => r.color) cfg
      ⟨cfg, o, a, false, false, false⟩
    have hb := foldl_cleanup_ne h2 color (rules.map fun r => r.color) targets.apply
      (targets.apply.foldl (applyKeyStep color (rules.map fun r => r.color) cfg)
        ⟨cfg, o, a, false, false, false⟩)
    exact hb.1.trans ha.1
  · have hq : q ∉ dedupFirst (targets.apply ++ targets.cleanup) := by
      rw [mem_dedupFirst, List.mem_append]
      rintro (h | h)
      · exact h1 h
      · exact h2 h
    have hc := foldl_clear_ne hq (rules.map fun r => r.color) ⟨cfg, b, false, false⟩
    show (if ((dedupFirst (targets.apply ++ targets.cleanup)).foldl
        (clearKeyStep (rules.map fun r => r.color)) ⟨cfg, b, false, false⟩).changed then
        ((dedupFirst (targets.apply ++ targets.cleanup)).foldl
          (clearKeyStep (rules.map fun r => r.color)) ⟨cfg, b, false, false⟩).next
      else cfg) q = cfg q
    split_ifs
    · exact hc.1
    · rfl

/-- Witness for C10 at a key outside both target sets. -/
theorem C10_frame_witness :
    (applyColorModel (some "#FF0000") [⟨"m", "#FF0000"⟩] ⟨["K"], ["K"]⟩
        (fun q => if q = "Z" then some (.str "#FF0000") else none) [] []).next "Z" =
        (fun q => if q = "Z" then some (.str "#FF0000") else none : Cfg) "Z" ∧
      (clearBranchOverridesModel [⟨"m", "#FF0000"⟩] ⟨["K"], ["K"]⟩
        (fun q => if q = "Z" then some (.str "#FF0000") else none) []).cfg "Z" =
        (fun q => if q = "Z" then some (.str "#FF0000") else none : Cfg) "Z" :=
  C10_frame "Z" (some "#FF0000") [⟨"m", "#FF0000"⟩] ⟨["K"], ["K"]⟩
    (fun q => if q = "Z" then some (.str "#FF0000") else none) [] [] []
    (by decide) (by decide)

theorem heurDelete_congr {k : String} {m1 m2 : List (String × String)}
    (h : olookup m1 k = olookup m2 k) (rc : List String) (w : Option CVal) :
    heurDelete rc m1 k w = heurDelete rc m2 k w := by
  cases w with
  | none => rfl
  | some v =>
    cases v with
    | str s => simp [heurDelete, h]
    | other n => rfl

/-- Per-key outcome of a normal pass with no resolved color: restore from the
`originals` entry when it alters the snapshot, otherwise the heuristic
deletion test decides. -/
theorem applyColorModel_restore_outcome (rules : List BranchRule) (targets : ColorTargets)
    (cfg : Cfg) (o : List (String × OriginalColorEntry)) (a : List (String × String))
    (k : String) (hk : k ∈ targets.apply) (hnd : targets.apply.Nodup) :
    (applyColorModel none rules targets cfg o a).next k =
      (match olookup o k with
       | some .missing => none
       | some (.value v) =>
         if cfg k = some v then
           (if heurDelete (rules.map fun r => r.color) a k (some v) then none else some v)
         else some v
       | none =>
         if heurDelete (rules.map fun r => r.color) a k (cfg k) then none else cfg k) := by
  unfold applyColorModel
  dsimp only
  obtain ⟨l1, l2, heq, hk1, hk2⟩ := mem_nodup_split hk hnd
  rw [heq, List.foldl_append, List.foldl_cons]
  have hcon : (l1 ++ k :: l2).contains k = true := (contains_iff _ _).mpr (by simp)
  have hA := foldl_apply_ne hk1 none (rules.map fun r => r.color) cfg
    ⟨cfg, o, a, false, false, false⟩
  have hl2 := foldl_apply_ne hk2 none (rules.map fun r => r.color) cfg
    (applyKeyStep none (rules.map fun r => r.color) cfg
      (l1.foldl (applyKeyStep none (rules.map fun r => r.color) cfg)
        ⟨cfg, o, a, false, false, false⟩) k)
  have hclean := foldl_cleanup_skip hcon none (rules.map fun r => r.color) targets.cleanup
    (l2.foldl (applyKeyStep none (rules.map fun r => r.color) cfg)
      (applyKeyStep none (rules.map fun r => r.color) cfg
        (l1.foldl (applyKeyStep none (rules.map fun r => r.color) cfg)
          ⟨cfg, o, a, false, false, false⟩) k))
  rw [hclean.1, hl2.1, applyKeyStep_none]
  cases ho : olookup o k with
  | none =>
    rw [applyRestoreStep_no_orig (hA.2.1.trans ho) _]
    rw [hA.1, heurDelete_congr hA.2.2]
  | some e =>
    cases e with
    | missing => rw [applyRestoreStep_missing (hA.2.1.trans ho) _]
    | value v =>
      by_cases hcv : cfg k = some v
      · rw [applyRestoreStep_value_eq (hA.2.1.trans ho) (hA.1.trans hcv) _,
          heurDelete_congr hA.2.2]
        dsimp only
        rw [if_pos hcv]
      · rw [applyRestoreStep_value_ne (hA.2.1.trans ho)
          (fun hh => hcv (hA.1.symm.trans hh)) _]
        dsimp only
        rw [if_neg hcv]

/-- **C2 counterexample.** With no resolved color, an `originals` entry equal
to the current external value does not protect the key: the heuristic still
runs and deletes the value because it equals a rule color — the claim asserts
the key is written back from the entry and never deleted. -/
theorem C2_counterexample :
    olookup [("K", OriginalColorEntry.value (.str "#AAA"))] "K" =
        some (.value (.str "#AAA")) ∧
      (applyColorModel none [⟨"x", "#AAA"⟩] ⟨["K"], ["K"]⟩
        (fun q => if q = "K" then some (.str "#AAA") else none)
        [("K", .value (.str "#AAA"))] []).next "K" = none := by decide

/-- **C2 (amended).** In a normal pass with no resolved color, for a key in
`targets.apply`: a `Missing` entry leaves the key absent; a `Value v` entry is
written back whenever it differs from the current external value, and the
heuristic is skipped; but when the entry equals the current value,
`restoreOriginal` reports no change and the heuristic runs — deleting the key
if its value is a string equal to a rule color or to the truthy applied entry;
with no entry the heuristic alone decides. -/
theorem C2_restore_gating (k : String) (rules : List BranchRule) (targets : ColorTargets)
    (cfg : Cfg) (o : List (String × OriginalColorEntry)) (a : List (String × String))
    (hk : k ∈ targets.apply) (hnd : targets.apply.Nodup) :
    (applyColorModel none rules targets cfg o a).next k =
      (match olookup o k with
       | some .missing => none
       | some (.value v) =>
         if cfg k = some v then
           (if heurDelete (rules.map fun r => r.color) a k (some v) then none else some v)
         else some v
       | none =>
         if heurDelete (rules.map fun r => r.color) a k (cfg k) then none else cfg k) :=
  applyColorModel_restore_outcome rules targets cfg o a k hk hnd

/-- Witness for the amended C2: a differing `Value` entry is restored exactly
even when it equals a rule color. -/
theorem C2_restore_gating_witness :
    (applyColorModel none [⟨"x", "#AAA"⟩] ⟨["K"], ["K"]⟩
        (fun q => if q = "K" then some (.str "#BBB") else none)
        [("K", .value (.str "#AAA"))] []).next "K" = some (.str "#AAA") := by
  have h := C2_restore_gating "K" [⟨"x", "#AAA"⟩] ⟨["K"], ["K"]⟩
    (fun q => if q = "K" then some (.str "#BBB") else none)
    [("K", .value (.str "#AAA"))] [] (by decide) (by decide)
  rw [h]
  decide

/-- **C1 counterexample.** Round-trip fails when the starting value equals the
rule's color: the key starts at `"#FF0000"`, a pass applies the matching rule
color `"#FF0000"` (recording nothing), and the following no-match pass deletes
the key instead of restoring `"#FF0000"`. -/
theorem C1_counterexample :
    (fun q => if q = "K" then some (CVal.str "#FF0000") else none : Cfg) "K" =
        some (.str "#FF0000") ∧
      (applyColorModel none [⟨"^main$", "#FF0000"⟩] ⟨["K"], ["K"]⟩
        (applyColorModel (some "#FF0000") [⟨"^main$", "#FF0000"⟩] ⟨["K"], ["K"]⟩
          (fun q => if q = "K" then some (.str "#FF0000") else none) [] []).next
        (applyColorModel (some "#FF0000") [⟨"^main$", "#FF0000"⟩] ⟨["K"], ["K"]⟩
          (fun q => if q = "K" then some (.str "#FF0000") else none) [] []).originals
        (applyColorModel (some "#FF0000") [⟨"^main$", "#FF0000"⟩] ⟨["K"], ["K"]⟩
          (fun q => if q = "K" then some (.str "#FF0000") else none) [] []).applied).next
        "K" = none := by decide

/-- **C1 (amended).** Round-trip restoration holds for every apply-set key
whose starting external value differs from the applied color and which has no
prior `originals` entry: after a pass applying color `c` and a later pass with
no resolved color, the key's external value is exactly its pre-first-pass
value (or absent, if it was absent). -/
theorem C1_round_trip (c k : String) (hc : c ≠ "") (targets : ColorTargets)
    (hk : k ∈ targets.apply) (hnd : targets.apply.Nodup)
    (rules1 rules2 : List BranchRule) (cfg : Cfg)
    (o : List (String × OriginalColorEntry)) (a : List (String × String))
    (h0 : olookup o k = none) (hv : cfg k ≠ some (.str c)) :
    (applyColorModel none rules2 targets
        (applyColorModel (some c) rules1 targets cfg o a).next
        (applyColorModel (some c) rules1 targets cfg o a).originals
        (applyColorModel (some c) rules1 targets cfg o a).applied).next k = cfg k := by
  have hP1next := (applyColorModel_applies hc hk rules1 cfg o a).1
  have hP1orig := applyColorModel_remember hc hk rules1 cfg o a h0 hv
  rw [applyColorModel_restore_outcome rules2 targets _ _ _ k hk hnd, hP1orig]
  cases hcfg : cfg k with
  | none => rfl
  | some v =>
    have hvne : (applyColorModel (some c) rules1 targets cfg o a).next k ≠ some v := by
      rw [hP1next]
      intro hh
      apply hv
      rw [hcfg, ← Option.some_inj.mp hh]
    simp only [entryOf]
    rw [if_neg hvne]

/-- Witness for the amended C1: `"#111111"` round-trips under rule color
`"#FF0000"`. -/
theorem C1_round_trip_witness :
    (applyColorModel none [⟨"^main$", "#FF0000"⟩] ⟨["K"], ["K"]⟩
        (applyColorModel (some "#FF0000") [⟨"^main$", "#FF0000"⟩] ⟨["K"], ["K"]⟩
          (fun q => if q = "K" then some (.str "#111111") else none) [] []).next
        (applyColorModel (some "#FF0000") [⟨"^main$", "#FF0000"⟩] ⟨["K"], ["K"]⟩
          (fun q => if q = "K" then some (.str "#111111") else none) [] []).originals
        (applyColorModel (some "#FF0000") [⟨"^main$", "#FF0000"⟩] ⟨["K"], ["K"]⟩
          (fun q => if q = "K" then some (.str "#111111") else none) [] []).applied).next
      "K" = (fun q => if q = "K" then some (CVal.str "#111111") else none : Cfg) "K" :=
  C1_round_trip "#FF0000" "K" (by decide) ⟨["K"], ["K"]⟩ (by decide) (by decide)
    [⟨"^main$", "#FF0000"⟩] [⟨"^main$", "#FF0000"⟩]
    (fun q => if q = "K" then some (.str "#111111") else none) [] []
    (by decide) (by decide)

/-! ### Full restore (`restoreOriginalColors`) -/

theorem restoreKeyStep_missing {k : String} {o : List (String × OriginalColorEntry)}
    (h : olookup o k = some .missing) (a : List (String × String)) (st : Cfg × Bool) :
    (restoreKeyStep o a st k).1 k = none := by
  simp only [restoreKeyStep, h]
  split
  · simp [cdel]
  · rename_i hns
    simpa using hns

theorem restoreKeyStep_value {k : String} {v : CVal} {o : List (String × OriginalColorEntry)}
    (h : olookup o k = some (.value v)) (a : List (String × String)) (st : Cfg × Bool) :
    (restoreKeyStep o a st k).1 k = some v := by
  simp only [restoreKeyStep, h]
  split
  · simp [cset]
  · rename_i hns
    simpa using hns

theorem restoreKeyStep_applied_case {k w : String} {o : List (String × OriginalColorEntry)}
    {a : List (String × String)} (h : olookup o k = none) (ha : olookup a k = some w)
    (st : Cfg × Bool) :
    (restoreKeyStep o a st k).1 k =
      if w ≠ "" ∧ st.1 k = some (.str w) then none else st.1 k := by
  simp only [restoreKeyStep, h, ha]
  split_ifs with hc
  · simp [cdel]
  · rfl

theorem restoreKeyStep_nothing {k : String} {o : List (String × OriginalColorEntry)}
    {a : List (String × String)} (h : olookup o k = none) (ha : olookup a k = none)
    (st : Cfg × Bool) : (restoreKeyStep o a st k).1 k = st.1 k := by
  simp [restoreKeyStep, h, ha]

theorem foldl_restore_ne {q : String} {l : List String} (hq : q ∉ l)
    (o : List (String × OriginalColorEntry)) (a : List (String × String)) (st : Cfg × Bool) :
    (l.foldl (restoreKeyStep o a) st).1 q = st.1 q := by
  refine foldl_pres (p := fun t : Cfg × Bool => t.1 q = st.1 q) _ l st
    (fun t b hb hp => ?_) rfl
  have hqb : q ≠ b := fun h => hq (h ▸ hb)
  exact (restoreKeyStep_fst_ne hqb _ _ _).trans hp

theorem foldl_restore_localized {k : String} (o : List (String × OriginalColorEntry))
    (a : List (String × String)) {l : List String} (hk : k ∈ l) (hnd : l.Nodup)
    (st : Cfg × Bool) :
    (l.foldl (restoreKeyStep o a) st).1 k =
      (match olookup o k with
       | some .missing => none
       | some (.value v) => some v
       | none =>
         match olookup a k with
         | some w => if w ≠ "" ∧ st.1 k = some (.str w) then none else st.1 k
         | none => st.1 k) := by
  obtain ⟨l1, l2, heqx, h1, h2⟩ := mem_nodup_split hk hnd
  rw [heqx, List.foldl_append, List.foldl_cons]
  rw [foldl_restore_ne h2 o a]
  have hfr1 := foldl_restore_ne h1 o a st
  cases ho : olookup o k with
  | some e =>
    cases e with
    | missing => rw [restoreKeyStep_missing ho]
    | value v => rw [restoreKeyStep_value ho]
  | none =>
    cases ha : olookup a k with
    | some w => rw [restoreKeyStep_applied_case ho ha, hfr1]
    | none => rw [restoreKeyStep_nothing ho ha, hfr1]

theorem dedupFirst_eq_nil {l : List String} : dedupFirst l = [] ↔ l = [] := by
  cases l with
  | nil => simp [dedupFirst]
  | cons x xs => simp [dedupFirst]

/-- With a nonempty union of store keys, the configuration produced by a full
restore is the per-key fold result. -/
theorem restoreOriginalColorsModel_cfg (raw : List BranchRule) (keys : List String)
    (cfg : Cfg) (ws : WS)
    (hne : dedupFirst (okeys ws.originals ++ okeys ws.applied) ≠ []) :
    (restoreOriginalColorsModel raw keys cfg ws).cfg =
      ((dedupFirst (okeys ws.originals ++ okeys ws.applied)).foldl
        (restoreKeyStep ws.originals ws.applied) (cfg, false)).1 ∧
      (restoreOriginalColorsModel raw keys cfg ws).ws.originals = [] ∧
      (restoreOriginalColorsModel raw keys cfg ws).ws.applied = [] := by
  unfold restoreOriginalColorsModel
  dsimp only
  rw [if_neg hne]
  refine ⟨?_, rfl, rfl⟩
  by_cases hch : ((dedupFirst (okeys ws.originals ++ okeys ws.applied)).foldl
      (restoreKeyStep ws.originals ws.applied) (cfg, false)).2
  · rw [if_pos hch]
  · rw [if_neg hch]
    have hchf : ((dedupFirst (okeys ws.originals ++ okeys ws.applied)).foldl
        (restoreKeyStep ws.originals ws.applied) (cfg, false)).2 = false := by
      revert hch
      cases ((dedupFirst (okeys ws.originals ++ okeys ws.applied)).foldl
        (restoreKeyStep ws.originals ws.applied) (cfg, false)).2 <;> simp
    obtain ⟨h1, _⟩ := foldl_flag _ (fun t : Cfg × Bool => t.2) (fun t : Cfg × Bool => t.1)
      (fun st k => restoreKeyStep_flag _ _ st k) _ _ hchf
    exact h1.symm

/-- **C5 counterexample.** From `originals = {}` and `applied = {K: ""}` with
external `{K: ""}`, the external value is a string equal to the recorded
applied color, yet the key is not deleted (the truthiness guard rejects the
empty string) — the claim demands deletion exactly when the values are equal. -/
theorem C5_counterexample :
    olookup ([("K", "")] : List (String × String)) "K" = some "" ∧
      (fun q => if q = "K" then some (CVal.str "") else none : Cfg) "K" =
        some (.str "") ∧
      (restoreOriginalColorsModel [] [] (fun q => if q = "K" then some (.str "") else none)
        ⟨[], [], [("K", "")]⟩).cfg "K" ≠ none := by decide

/-- **C5 (amended).** Full restore from a state with nonempty `originals` or
`applied` processes every key of their union: a `Missing` entry removes the
key, a `Value v` entry sets it to `v`, a key with no `originals` entry is
deleted iff its external value is a string equal to the recorded applied
color *and that color is nonempty*, every other key is untouched, and both
stores are empty afterward. -/
theorem C5_full_restore (raw : List BranchRule) (keys : List String) (cfg : Cfg) (ws : WS)
    (hne : ws.originals ≠ [] ∨ ws.applied ≠ []) :
    (∀ k, olookup ws.originals k = some .missing →
        (restoreOriginalColorsModel raw keys cfg ws).cfg k = none) ∧
      (∀ k v, olookup ws.originals k = some (.value v) →
        (restoreOriginalColorsModel raw keys cfg ws).cfg k = some v) ∧
      (∀ k w, olookup ws.originals k = none → olookup ws.applied k = some w →
        (restoreOriginalColorsModel raw keys cfg ws).cfg k =
          (if w ≠ "" ∧ cfg k = some (.str w) then none else cfg k)) ∧
      (∀ k, olookup ws.originals k = none → olookup ws.applied k = none →
        (restoreOriginalColorsModel raw keys cfg ws).cfg k = cfg k) ∧
      (restoreOriginalColorsModel raw keys cfg ws).ws.originals = [] ∧
      (restoreOriginalColorsModel raw keys cfg ws).ws.applied = [] := by
  have hnil : dedupFirst (okeys ws.originals ++ okeys ws.applied) ≠ [] := by
    rw [Ne, dedupFirst_eq_nil, List.append_eq_nil]
    rintro ⟨h1, h2⟩
    rcases hne with h | h
    · exact h (List.map_eq_nil_iff.mp h1)
    · exact h (List.map_eq_nil_iff.mp h2)
  obtain ⟨hcfg, ho, ha⟩ := restoreOriginalColorsModel_cfg raw keys cfg ws hnil
  have hmem : ∀ k, (olookup ws.originals k).isSome ∨ (olookup ws.applied k).isSome →
      k ∈ dedupFirst (okeys ws.originals ++ okeys ws.applied) := by
    intro k hk
    rw [mem_dedupFirst, List.mem_append, mem_okeys, mem_okeys]
    exact hk
  refine ⟨?_, ?_, ?_, ?_, ho, ha⟩
  · intro k hk
    rw [hcfg, foldl_restore_localized ws.originals ws.applied
      (hmem k (Or.inl (by rw [hk]; rfl))) (nodup_dedupFirst _) (cfg, false), hk]
  · intro k v hk
    rw [hcfg, foldl_restore_localized ws.originals ws.applied
      (hmem k (Or.inl (by rw [hk]; rfl))) (nodup_dedupFirst _) (cfg, false), hk]
  · intro k w hk hw
    rw [hcfg, foldl_restore_localized ws.originals ws.applied
      (hmem k (Or.inr (by rw [hw]; rfl))) (nodup_dedupFirst _) (cfg, false), hk, hw]
  · intro k hk hw
    rw [hcfg]
    refine foldl_restore_ne ?_ ws.originals ws.applied (cfg, false)
    intro hin
    rw [mem_dedupFirst, List.mem_append, mem_okeys, mem_okeys, hk, hw] at hin
    simp at hin

/-- Witness for the amended C5 at the spec's own P6 example: `originals =
{K: Value("#111111")}`, `applied = {K: "#FF0000"}`, external `{K: "#FF0000"}`
restores `K` to `"#111111"` and empties both stores. -/
theorem C5_full_restore_witness :
    (restoreOriginalColorsModel [] [] (fun q => if q = "K" then some (.str "#FF0000") else none)
        ⟨[], [("K", .value (.str "#111111"))], [("K", "#FF0000")]⟩).cfg "K" =
        some (.str "#111111") ∧
      (restoreOriginalColorsModel [] []
        (fun q => if q = "K" then some (.str "#FF0000") else none)
        ⟨[], [("K", .value (.str "#111111"))], [("K", "#FF0000")]⟩).ws.originals = [] ∧
      (restoreOriginalColorsModel [] []
        (fun q => if q = "K" then some (.str "#FF0000") else none)
        ⟨[], [("K", .value (.str "#111111"))], [("K", "#FF0000")]⟩).ws.applied = [] := by
  have h := C5_full_restore [] [] (fun q => if q = "K" then some (.str "#FF0000") else none)
    ⟨[], [("K", .value (.str "#111111"))], [("K", "#FF0000")]⟩ (Or.inl (by decide))
  exact ⟨h.2.1 "K" (.str "#111111") (by decide), h.2.2.2.2⟩

/-! ### Rebase after an external theme change -/

/-- **C6.** The rebase pass is a no-op when both stores are empty; otherwise
it is exactly the heuristic cleanup (rule-color / applied-color matching,
ignoring `originals`) over `apply ∪ cleanup`, followed by discarding both
stores and re-running a normal pass from the cleaned baseline; consequently
every `originals` entry present after the rebase records the post-cleanup
external value of its key — no entry recorded before the rebase survives it. -/
theorem C6_rebase (rt : String → String → Option Bool) (b : Option String)
    (raw : List BranchRule) (keys : List String) (cfg : Cfg) (ws : WS) :
    ((ws.originals = [] ∧ ws.applied = []) →
        rebaseAfterThemeChangeModel rt b raw keys cfg ws = (cfg, ws)) ∧
      (¬(ws.originals = [] ∧ ws.applied = []) →
        (rebaseAfterThemeChangeModel rt b raw keys cfg ws =
          ((updateColorsModel rt b raw keys
              (clearBranchOverridesModel (getRulesModel raw)
                (getColorTargetsModel keys ws.lastKeys) cfg ws.applied).cfg
              ⟨ws.lastKeys, [], []⟩).cfg,
            (updateColorsModel rt b raw keys
              (clearBranchOverridesModel (getRulesModel raw)
                (getColorTargetsModel keys ws.lastKeys) cfg ws.applied).cfg
              ⟨ws.lastKeys, [], []⟩).ws)) ∧
        ∀ k e,
          olookup (rebaseAfterThemeChangeModel rt b raw keys cfg ws).2.originals k = some e →
          e = entryOf ((clearBranchOverridesModel (getRulesModel raw)
            (getColorTargetsModel keys ws.lastKeys) cfg ws.applied).cfg k)) := by
  constructor
  · intro h
    unfold rebaseAfterThemeChangeModel
    rw [if_pos h]
  · intro h
    constructor
    · unfold rebaseAfterThemeChangeModel
      rw [if_neg h]
    · intro k e he
      unfold rebaseAfterThemeChangeModel at he
      rw [if_neg h] at he
      dsimp only at he
      rw [updateColorsModel_originals] at he
      unfold passOf at he
      exact applyColorModel_fresh_originals _ _ _ _ _ he

/-- Witness for C6: the no-op case at empty stores, and re-anchoring to the
post-cleanup baseline at a nonempty state. -/
theorem C6_rebase_witness :
    rebaseAfterThemeChangeModel (fun p q => some (p == q)) (some "main")
        [⟨"main", "#FF0000"⟩] ["K"] (fun _ => none) ⟨[], [], []⟩ =
        ((fun _ => none : Cfg), ⟨[], [], []⟩) ∧
      OriginalColorEntry.value (.str "#0F0F0F") =
        entryOf ((clearBranchOverridesModel
          (getRulesModel [⟨"main", "#FF0000"⟩])
          (getColorTargetsModel ["K"] (["K"] : List String))
          (fun q => if q = "K" then some (.str "#0F0F0F") else none)
          [("K", "#FF0000")]).cfg "K") := by
  constructor
  · exact (C6_rebase (fun p q => some (p == q)) (some "main") [⟨"main", "#FF0000"⟩] ["K"]
      (fun _ => none) ⟨[], [], []⟩).1 ⟨rfl, rfl⟩
  · exact (C6_rebase (fun p q => some (p == q)) (some "main") [⟨"main", "#FF0000"⟩] ["K"]
      (fun q => if q = "K" then some (.str "#0F0F0F") else none)
      ⟨["K"], [("K", .missing)], [("K", "#FF0000")]⟩).2 (by decide) |>.2 "K"
      (.value (.str "#0F0F0F")) (by decide)

/-! ### Idempotence of a colored pass -/

theorem contains_eq_false {l : List String} {a : String} (h : a ∉ l) :
    l.contains a = false := by
  cases hc : l.contains a with
  | false => rfl
  | true => exact absurd ((contains_iff l a).mp hc) h

theorem removeAppliedStep_applied_self (st : PassSt) (k : String) :
    olookup (removeAppliedStep st k).applied k = none := by
  unfold removeAppliedStep
  split
  · exact olookup_oerase_self _ _
  · rename_i hns
    simpa using hns

/-- One cleanup iteration at a non-apply key leaves no applied entry and a
value that a repeat of the deletion test keeps. -/
theorem cleanupKeyStep_establish {ap : List String} {k : String}
    (hknotap : ap.contains k = false) (color : Option String) (rc : List String)
    (st : PassSt) :
    olookup (cleanupKeyStep color rc ap st k).applied k = none ∧
      keptSafe color rc ((cleanupKeyStep color rc ap st k).next k) := by
  unfold cleanupKeyStep
  rw [hknotap]
  simp only [Bool.false_eq_true, if_false]
  refine ⟨removeAppliedStep_applied_self _ _, ?_⟩
  rw [removeAppliedStep_next]
  unfold cleanupCore
  cases hv : st.next k with
  | none => simp [hv, keptSafe]
  | some w =>
    cases w with
    | str s =>
      simp only [hv]
      split_ifs with hC
      · simp [cdel, keptSafe]
      · simp only [hv, keptSafe]
        simp only [Bool.or_eq_true, not_or] at hC
        obtain ⟨⟨ha1, ha2⟩, -⟩ := hC
        cases hb1 : rc.contains s with
        | true => exact absurd hb1 ha1
        | false =>
          cases hb2 : color == some s with
          | true => exact absurd hb2 ha2
          | false => rfl
    | other n => simp [hv, keptSafe]

/-- A cleanup iteration is the identity at a non-apply key that already
satisfies the post-cleanup invariant. -/
theorem cleanupKeyStep_id {ap : List String} {k : String}
    (hknotap : ap.contains k = false) {color : Option String} {rc : List String}
    {st : PassSt} (hna : olookup st.applied k = none)
    (hsafe : keptSafe color rc (st.next k)) :
    cleanupKeyStep color rc ap st k = st := by
  unfold cleanupKeyStep
  rw [hknotap]
  simp only [Bool.false_eq_true, if_false]
  have hcore : cleanupCore color rc st k = st := by
    unfold cleanupCore
    cases hv : st.next k with
    | none => rfl
    | some w =>
      cases w with
      | str s =>
        rw [hv] at hsafe
        simp only [keptSafe] at hsafe
        simp only [hna]
        split_ifs with hcc
        · rw [hsafe] at hcc
          simp at hcc
        · rfl
      | other n => rfl
  rw [hcore]
  unfold removeAppliedStep
  rw [hna]
  simp

theorem foldl_cleanup_establish {ap : List String} {k : String}
    (hknotap : ap.contains k = false) (color : Option String) (rc : List String) :
    ∀ (l : List String), k ∈ l → ∀ st : PassSt,
      olookup (l.foldl (cleanupKeyStep color rc ap) st).applied k = none ∧
        keptSafe color rc ((l.foldl (cleanupKeyStep color rc ap) st).next k)
  | [], hk, _ => absurd hk (List.not_mem_nil k)
  | a :: l, hk, st => by
    simp only [List.foldl_cons]
    by_cases hkl : k ∈ l
    · exact foldl_cleanup_establish hknotap color rc l hkl _
    · have hka : k = a := by
        rcases List.mem_cons.mp hk with h | h
        · exact h
        · exact absurd h hkl
      subst hka
      refine foldl_pres (p := fun t : PassSt =>
        olookup t.applied k = none ∧ keptSafe color rc (t.next k)) _ l _
        (fun t b hb hp => ?_) (cleanupKeyStep_establish hknotap color rc st)
      have hkb : k ≠ b := fun h => hkl (h ▸ hb)
      refine ⟨(cleanupKeyStep_applied_ne hkb _ _ _ _).trans hp.1, ?_⟩
      rw [cleanupKeyStep_next_ne hkb]
      exact hp.2

set_option maxHeartbeats 1000000 in
/-- Post-pass cleanup invariant: after any pass, each cleanup key outside the
apply set has no applied entry and a value the deletion test would keep. -/
theorem applyColorModel_cleanup_post {k : String} (color : Option String)
    (rules : List BranchRule) (targets : ColorTargets) (cfg : Cfg)
    (o : List (String × OriginalColorEntry)) (a : List (String × String))
    (hk : k ∈ targets.cleanup) (hknotap : k ∉ targets.apply) :
    olookup (applyColorModel color rules targets cfg o a).applied k = none ∧
      keptSafe color (rules.map fun r => r.color)
        ((applyColorModel color rules targets cfg o a).next k) := by
  unfold applyColorModel
  dsimp only
  exact foldl_cleanup_establish (contains_eq_false hknotap) color
    (rules.map fun r => r.color) targets.cleanup hk
    (targets.apply.foldl (applyKeyStep color (rules.map fun r => r.color) cfg)
      ⟨cfg, o, a, false, false, false⟩)

/-- An apply iteration with a truthy color is the identity when the key
already holds the color in both the configuration and the applied store. -/
theorem applyKeyStep_id {c k : String} (hc : c ≠ "") {st : PassSt}
    (h1 : olookup st.applied k = some c) (h2 : st.next k = some (.str c))
    (rc : List String) (cur : Cfg) :
    applyKeyStep (some c) rc cur st k = st := by
  simp only [applyKeyStep, if_neg hc]
  rw [if_pos h1, if_pos h2]

theorem mem_cleanup_iff (keys l : List String) (x : String) :
    x ∈ (getColorTargetsModel keys l).cleanup ↔
      x ∈ (getColorTargetsModel keys l).apply ∨ x ∈ DEFAULT_COLOR_KEYS ∨ x ∈ l := by
  simp only [getColorTargetsModel]
  rw [mem_dedupFirst, List.mem_append, List.mem_append, or_assoc]

theorem mem_apply_mem_cleanup {keys l : List String} {x : String}
    (h : x ∈ (getColorTargetsModel keys l).apply) : x ∈ (getColorTargetsModel keys l).cleanup :=
  (mem_cleanup_iff keys l x).mpr (Or.inl h)

/-- **C7 counterexample.** A second pass with unchanged inputs can write the
external configuration store again: with rules `[{x, #AAA}]`, a non-matching
branch `b`, and `originals = {K: Value("#AAA")}`, the first pass restores `K`
to `"#AAA"` and the second pass deletes it again (its value equals a rule
color), so both passes perform a configuration write — the claim forbids any
second-pass write. -/
theorem C7_counterexample :
    (updateColorsModel (fun p q => some (p == q)) (some "b") [⟨"x", "#AAA"⟩] ["K"]
        (updateColorsModel (fun p q => some (p == q)) (some "b") [⟨"x", "#AAA"⟩] ["K"]
          (fun q => if q = "K" then some (.str "#BBB") else none)
          ⟨[], [("K", .value (.str "#AAA"))], []⟩).cfg
        (updateColorsModel (fun p q => some (p == q)) (some "b") [⟨"x", "#AAA"⟩] ["K"]
          (fun q => if q = "K" then some (.str "#BBB") else none)
          ⟨[], [("K", .value (.str "#AAA"))], []⟩).ws).cfgWritten = true := by decide

set_option maxHeartbeats 1600000 in
/-- **C7 (amended).** When a color is resolved, running the pass a second time
with unchanged inputs performs no write to the external configuration store
and no write to the `originals`/`applied` state entries; the last-applied
target-key entry, however, is rewritten unconditionally on every pass (and
with no resolved color a second pass may write the external store again). -/
theorem C7_idempotent_with_color (c : String) (rt : String → String → Option Bool)
    (b : Option String) (raw : List BranchRule) (keys : List String) (cfg : Cfg) (ws : WS)
    (hc : resolvedColor rt b (getRulesModel raw) = some c) :
    (updateColorsModel rt b raw keys (updateColorsModel rt b raw keys cfg ws).cfg
        (updateColorsModel rt b raw keys cfg ws).ws).cfgWritten = false ∧
      (updateColorsModel rt b raw keys (updateColorsModel rt b raw keys cfg ws).cfg
        (updateColorsModel rt b raw keys cfg ws).ws).originalsWritten = false ∧
      (updateColorsModel rt b raw keys (updateColorsModel rt b raw keys cfg ws).cfg
        (updateColorsModel rt b raw keys cfg ws).ws).appliedWritten = false ∧
      (updateColorsModel rt b raw keys cfg ws).lastKeysWritten = true := by
  have hcne : c ≠ "" := resolvedColor_ne_empty hc
  have hst1 : passOf rt b raw keys cfg ws =
      applyColorModel (some c) (getRulesModel raw) (getColorTargetsModel keys ws.lastKeys)
        cfg ws.originals ws.applied := by
    unfold passOf
    rw [hc]
  have hP1 : ∀ x ∈ (getColorTargetsModel keys ws.lastKeys).apply,
      (updateColorsModel rt b raw keys cfg ws).cfg x = some (.str c) ∧
        olookup (updateColorsModel rt b raw keys cfg ws).ws.applied x = some c := by
    intro x hx
    rw [updateColorsModel_cfg, updateColorsModel_applied, hst1]
    exact applyColorModel_applies hcne hx _ _ _ _
  have hP2 : ∀ x ∈ (getColorTargetsModel keys ws.lastKeys).cleanup,
      x ∉ (getColorTargetsModel keys ws.lastKeys).apply →
      olookup (updateColorsModel rt b raw keys cfg ws).ws.applied x = none ∧
        keptSafe (some c) ((getRulesModel raw).map fun r => r.color)
          ((updateColorsModel rt b raw keys cfg ws).cfg x) := by
    intro x hx hnx
    rw [updateColorsModel_cfg, updateColorsModel_applied, hst1]
    exact applyColorModel_cleanup_post (some c) _ _ cfg ws.originals ws.applied hx hnx
  have hpass2 : passOf rt b raw keys (updateColorsModel rt b raw keys cfg ws).cfg
      (updateColorsModel rt b raw keys cfg ws).ws =
      ⟨(updateColorsModel rt b raw keys cfg ws).cfg,
        (updateColorsModel rt b raw keys cfg ws).ws.originals,
        (updateColorsModel rt b raw keys cfg ws).ws.applied, false, false, false⟩ := by
    unfold passOf
    rw [hc]
    unfold applyColorModel
    dsimp only
    have h1 : (getColorTargetsModel keys
        (updateColorsModel rt b raw keys cfg ws).ws.lastKeys).apply.foldl
        (applyKeyStep (some c) ((getRulesModel raw).map fun r => r.color)
          (updateColorsModel rt b raw keys cfg ws).cfg)
        ⟨(updateColorsModel rt b raw keys cfg ws).cfg,
          (updateColorsModel rt b raw keys cfg ws).ws.originals,
          (updateColorsModel rt b raw keys cfg ws).ws.applied, false, false, false⟩ =
        ⟨(updateColorsModel rt b raw keys cfg ws).cfg,
          (updateColorsModel rt b raw keys cfg ws).ws.originals,
          (updateColorsModel rt b raw keys cfg ws).ws.applied, false, false, false⟩ := by
      refine foldl_id _ _ _ (fun x hx => ?_)
      have hx1 : x ∈ (getColorTargetsModel keys ws.lastKeys).apply := hx
      exact applyKeyStep_id hcne (hP1 x hx1).2 (hP1 x hx1).1 _ _
    rw [h1]
    refine foldl_id _ _ _ (fun x hx => ?_)
    by_cases hxa : x ∈ (getColorTargetsModel keys ws.lastKeys).apply
    · exact cleanupKeyStep_of_contains ((contains_iff _ _).mpr hxa) _ _ _
    · rcases (mem_cleanup_iff keys
          (updateColorsModel rt b raw keys cfg ws).ws.lastKeys x).mp hx with hxx | hxx | hxx
      · exact absurd hxx hxa
      · have hxc : x ∈ (getColorTargetsModel keys ws.lastKeys).cleanup :=
          (mem_cleanup_iff keys ws.lastKeys x).mpr (Or.inr (Or.inl hxx))
        obtain ⟨hna, hsafe⟩ := hP2 x hxc hxa
        exact cleanupKeyStep_id (contains_eq_false hxa) hna hsafe
      · exact absurd hxx hxa
  refine ⟨?_, ?_, ?_, rfl⟩
  · rw [updateColorsModel_cfgWritten, hpass2]
  · rw [updateColorsModel_originalsWritten, hpass2]
  · rw [updateColorsModel_appliedWritten, hpass2]

/-- Witness for the amended C7 on a concrete matching branch. -/
theorem C7_idempotent_with_color_witness :
    (updateColorsModel (fun p q => some (p == q)) (some "main") [⟨"main", "#FF0000"⟩] ["K"]
        (updateColorsModel (fun p q => some (p == q)) (some "main") [⟨"main", "#FF0000"⟩]
          ["K"] (fun _ => none) ⟨[], [], []⟩).cfg
        (updateColorsModel (fun p q => some (p == q)) (some "main") [⟨"main", "#FF0000"⟩]
          ["K"] (fun _ => none) ⟨[], [], []⟩).ws).cfgWritten = false ∧
      (updateColorsModel (fun p q => some (p == q)) (some "main") [⟨"main", "#FF0000"⟩] ["K"]
        (updateColorsModel (fun p q => some (p == q)) (some "main") [⟨"main", "#FF0000"⟩]
          ["K"] (fun _ => none) ⟨[], [], []⟩).cfg
        (updateColorsModel (fun p q => some (p == q)) (some "main") [⟨"main", "#FF0000"⟩]
          ["K"] (fun _ => none) ⟨[], [], []⟩).ws).originalsWritten = false ∧
      (updateColorsModel (fun p q => some (p == q)) (some "main") [⟨"main", "#FF0000"⟩] ["K"]
        (updateColorsModel (fun p q => some (p == q)) (some "main") [⟨"main", "#FF0000"⟩]
          ["K"] (fun _ => none) ⟨[], [], []⟩).cfg
        (updateColorsModel (fun p q => some (p == q)) (some "main") [⟨"main", "#FF0000"⟩]
          ["K"] (fun _ => none) ⟨[], [], []⟩).ws).appliedWritten = false ∧
      (updateColorsModel (fun p q => some (p == q)) (some "main") [⟨"main", "#FF0000"⟩] ["K"]
        (fun _ => none) ⟨[], [], []⟩).lastKeysWritten = true :=
  C7_idempotent_with_color "#FF0000" (fun p q => some (p == q)) (some "main")
    [⟨"main", "#FF0000"⟩] ["K"] (fun _ => none) ⟨[], [], []⟩ (by decide)

end GitBranchTheme
